import Mathlib

/-!
Verification development for the ahb-diff table comparison tool
(source: `src/ahb_diff/main.py`).

The embedding models a pandas `DataFrame` (as produced by
`pd.read_csv(..., dtype=str)`) as a `Table`: an ordered list of column
names together with an ordered list of rows, each row a positional list
of cells.  A cell is `Option String`, where `none` models a pandas
missing value (`NaN`, produced by `read_csv` for empty fields).

Python dictionaries (the `row` objects built by `create_row`) are
modelled as insertion-ordered association lists with dict update
semantics: assigning to an existing key keeps its position and
overwrites its value, assigning to a fresh key appends it.

The alignment loop of `align_columns` (lines 284-347) is embedded with
an explicit fuel parameter, returning `none` when the fuel is exhausted.
Every terminating run of the Python loop performs at most
`len(segments_old) + len(segments_new)` iterations (each iteration that
does not diverge advances a cursor), so calling the loop with fuel
`len + len + 1` yields `some` exactly on the inputs where the Python
loop terminates; `none` models nontermination of the source loop (which
is reachable, see the development below: Python's `list.index` uses an
identity shortcut, so a NaN key "matches" a NaN entry even though
`nan == nan` is false, allowing a forward-search offset of 0 which
advances neither cursor).
-/

namespace AhbDiff

/-- A table cell: `none` models a pandas missing value (NaN). -/
abbrev Cell := Option String

/-- A Python dict from column name to cell, as an insertion-ordered
association list. -/
abbrev Dict := List (String × Cell)

/-- A pandas DataFrame with string values: ordered column names and
ordered rows of positional cells. -/
structure Table where
  cols : List String
  rows : List (List Cell)
  deriving DecidableEq

/-- Python dict lookup: value of the first (unique) binding of `k`,
`none` if absent. -/
def dictGet : Dict → String → Cell
  | [], _ => none
  | p :: rest, k => if p.1 = k then p.2 else dictGet rest k

/-- Python dict assignment `d[k] = v`: overwrite in place if the key
exists, append otherwise. -/
def dictSet : Dict → String → Cell → Dict
  | [], k, v => [(k, v)]
  | p :: rest, k, v => if p.1 = k then (k, v) :: rest else p :: dictSet rest k v

/-- Index of the first occurrence of a column name in a header list
(pandas label lookup). -/
def idxOf? (col : String) : List String → Option Nat
  | [] => none
  | c :: rest => if c = col then some 0 else (idxOf? col rest).map (· + 1)

/-- The cell `df.iloc[idx][col]`: positional row access, label column
access. Out-of-range access is modelled as a missing value (it is
unreachable in the embedded code paths). -/
def getCell (t : Table) (idx : Nat) (col : String) : Cell :=
  match idxOf? col t.cols with
  | some k => (t.rows.getD idx []).getD k none
  | none => none

/-- The list `df[col].tolist()`. A missing column is modelled as the
empty list (pandas raises `KeyError`; the claims assume the mandatory
key column is present). -/
def columnToList (t : Table) (col : String) : List Cell :=
  match idxOf? col t.cols with
  | some k => t.rows.map (fun r => r.getD k none)
  | none => []

/-- Row selection `result_df[column_order]`: read the row dict at each
column of the requested order. -/
def reindex (d : Dict) (order : List String) : List Cell :=
  order.map (dictGet d)

/-- Pandas `df.empty`: true when either axis has length 0. -/
def tableEmpty (t : Table) : Bool :=
  t.rows.isEmpty || t.cols.isEmpty

/-- The rename `df.rename(columns={"Segmentname": f"Segmentname_{fv}"})`
(main.py lines 226-227). -/
def renameSegmentname (t : Table) (fv : String) : Table :=
  { t with cols := t.cols.map (fun c => if c = "Segmentname" then "Segmentname_" ++ fv else c) }

/-- The list `[col for col in df.columns if col != "Segmentname"]`
(main.py lines 230-231). -/
def dataColumns (t : Table) : List String :=
  t.cols.filter (fun c => decide (c ≠ "Segmentname"))

/-- The merged header `column_order` (main.py lines 233-239). -/
def columnOrder (prev sub : Table) (pFV sFV : String) : List String :=
  ["Segmentname_" ++ pFV]
    ++ (dataColumns prev).map (fun c => c ++ "_" ++ pFV)
    ++ ["diff"]
    ++ ["Segmentname_" ++ sFV]
    ++ (dataColumns sub).map (fun c => c ++ "_" ++ sFV)

/-- Python `==` between two cells as read from a string DataFrame: two
strings compare by value; a NaN compares unequal to everything,
including another NaN (`nan == nan` is false). -/
def cellEq : Cell → Cell → Bool
  | some a, some b => decide (a = b)
  | _, _ => false

/-- The element test used by Python's `list.index(x)`
(`PyObject_RichCompareBool`): an identity shortcut, then `==`.  All NaN
cells produced by `pd.read_csv` are the same `np.nan` object, so two
missing cells match by identity even though they are `==`-unequal;
distinct string objects match exactly when equal. -/
def pyIndexMatch (x c : Cell) : Bool :=
  (x.isNone && c.isNone) || cellEq c x

/-- Offset of the first element satisfying `p`, as computed by Python's
`list.index` on a slice (first match wins). -/
def findIdxOpt (p : Cell → Bool) : List Cell → Option Nat
  | [] => none
  | c :: rest => if p c then some 0 else (findIdxOpt p rest).map (· + 1)

/-- The helper `_populate_row_values` (main.py lines 159-177): with a
dataframe and an index, copy the key cell as-is (`is_segmentname` pass),
or copy every data cell with missing values replaced by the empty
string. -/
def populate_row_values (df : Option Table) (row : Dict) (idx : Option Nat)
    (fv : String) (isSegmentname : Bool) : Dict :=
  match df, idx with
  | some t, some i =>
      let segCol := "Segmentname_" ++ fv
      if isSegmentname then
        dictSet row segCol (getCell t i segCol)
      else
        t.cols.foldl
          (fun r col =>
            if col = segCol then r
            else dictSet r (col ++ "_" ++ fv) (some ((getCell t i col).getD "")))
          row
  | _, _ => row

/-- The row builder `create_row` (main.py lines 181-210): initialise the
two key columns and `diff` to the empty string, initialise every
suffixed data column of each present side to the empty string, then
populate the key cells and the data cells of the sides that have a
contributing index. -/
def create_row (previous_df new_df : Option Table) (i j : Option Nat)
    (previous_formatversion subsequent_formatversion : String) : Dict :=
  let row : Dict :=
    dictSet (dictSet (dictSet [] ("Segmentname_" ++ previous_formatversion) (some ""))
      "diff" (some "")) ("Segmentname_" ++ subsequent_formatversion) (some "")
  let row :=
    match previous_df with
    | none => row
    | some t =>
        t.cols.foldl
          (fun r col =>
            if col = "Segmentname_" ++ previous_formatversion then r
            else dictSet r (col ++ "_" ++ previous_formatversion) (some "")) row
  let row :=
    match new_df with
    | none => row
    | some t =>
        t.cols.foldl
          (fun r col =>
            if col = "Segmentname_" ++ subsequent_formatversion then r
            else dictSet r (col ++ "_" ++ subsequent_formatversion) (some "")) row
  let row := populate_row_values previous_df row i previous_formatversion true
  let row := populate_row_values new_df row j subsequent_formatversion true
  let row := populate_row_values previous_df row i previous_formatversion false
  let row := populate_row_values new_df row j subsequent_formatversion false
  row

/-- A `create_row` call followed by the `row["diff"] = <tag>` assignment
that every call site of `align_columns` performs. -/
def mkRow (df_old df_new : Table) (i j : Option Nat) (dv : String)
    (pFV sFV : String) : Dict :=
  dictSet (create_row (some df_old) (some df_new) i j pFV sFV) "diff" (some dv)

/-- One alignment decision of the loop in `align_columns`: an unchanged
pairing of `previous[i]` with `subsequent[j]`, a removal of
`previous[i]`, or an addition of `subsequent[j]`. -/
inductive Decision where
  | unchanged (i j : Nat)
  | removed (i : Nat)
  | new (j : Nat)
  deriving DecidableEq

/-- The alignment loop of `align_columns` (main.py lines 284-347),
embedded with explicit fuel; `none` models a run that exceeds the fuel
(the Python loop can genuinely diverge, see `spec_c5_nontermination`).
The branch order, the equality test (`==`, strict on NaN) and the
forward search (`list.index`, identity shortcut on NaN) follow the
source. -/
def alignLoopF : Nat → Table → Table → List Cell → List Cell → String → String → Nat → Nat → Option (List Dict)
  | 0, _, _, _, _, _, _, _, _ => none
  | fuel + 1, df_old, df_new, so, sn, pFV, sFV, i, j =>
    if i < so.length ∨ j < sn.length then
      if i ≥ so.length then
        (alignLoopF fuel df_old df_new so sn pFV sFV i (j + 1)).map
          (mkRow df_old df_new none (some j) "NEW" pFV sFV :: ·)
      else if j ≥ sn.length then
        (alignLoopF fuel df_old df_new so sn pFV sFV (i + 1) j).map
          (mkRow df_old df_new (some i) none "REMOVED" pFV sFV :: ·)
      else if cellEq (so.getD i none) (sn.getD j none) then
        (alignLoopF fuel df_old df_new so sn pFV sFV (i + 1) (j + 1)).map
          (mkRow df_old df_new (some i) (some j) "" pFV sFV :: ·)
      else
        match findIdxOpt (fun c => pyIndexMatch (so.getD i none) c) (sn.drop j) with
        | some k =>
            (alignLoopF fuel df_old df_new so sn pFV sFV i (j + k)).map
              (((List.range k).map (fun t => mkRow df_old df_new none (some (j + t)) "NEW" pFV sFV)) ++ ·)
        | none =>
            (alignLoopF fuel df_old df_new so sn pFV sFV (i + 1) j).map
              (mkRow df_old df_new (some i) none "REMOVED" pFV sFV :: ·)
    else some []

/-- The control-flow skeleton of `alignLoopF`: the same loop recording
only the alignment decisions, not the materialised rows. -/
def alignDecisionsF : Nat → List Cell → List Cell → Nat → Nat → Option (List Decision)
  | 0, _, _, _, _ => none
  | fuel + 1, so, sn, i, j =>
    if i < so.length ∨ j < sn.length then
      if i ≥ so.length then
        (alignDecisionsF fuel so sn i (j + 1)).map (Decision.new j :: ·)
      else if j ≥ sn.length then
        (alignDecisionsF fuel so sn (i + 1) j).map (Decision.removed i :: ·)
      else if cellEq (so.getD i none) (sn.getD j none) then
        (alignDecisionsF fuel so sn (i + 1) (j + 1)).map (Decision.unchanged i j :: ·)
      else
        match findIdxOpt (fun c => pyIndexMatch (so.getD i none) c) (sn.drop j) with
        | some k =>
            (alignDecisionsF fuel so sn i (j + k)).map
              (((List.range k).map (fun t => Decision.new (j + t))) ++ ·)
        | none =>
            (alignDecisionsF fuel so sn (i + 1) j).map (Decision.removed i :: ·)
    else some []

/-- The row dict that `align_columns` materialises for one decision. -/
def renderDict (df_old df_new : Table) (pFV sFV : String) : Decision → Dict
  | .unchanged i j => mkRow df_old df_new (some i) (some j) "" pFV sFV
  | .removed i => mkRow df_old df_new (some i) none "REMOVED" pFV sFV
  | .new j => mkRow df_old df_new none (some j) "NEW" pFV sFV

/-- The final cell normalisation of the general path of `align_columns`
(line 350): `pd.DataFrame(result_rows).astype(str).replace("nan", "")`.
`astype(str)` renders a NaN cell as the string `"nan"`; `replace` then
maps any cell whose whole value is `"nan"` to the empty string —
including a genuine string value `"nan"`. -/
def finalizeCell (c : Cell) : Cell :=
  let s := match c with | none => "nan" | some s => s
  some (if s == "nan" then "" else s)

/-- The merge `align_columns` (main.py lines 214-351): suffix the key
columns, fix the merged header, handle the three empty special cases,
otherwise run the alignment loop on the two key-column lists and
normalise the resulting rows.  `none` models nontermination of the
source loop (the fuel `|so| + |sn| + 1` exceeds the iteration count of
every terminating run). -/
def align_columns (previous_pruefid subsequent_pruefid : Table)
    (previous_formatversion subsequent_formatversion : String) : Option Table :=
  let df_old := renameSegmentname previous_pruefid previous_formatversion
  let df_new := renameSegmentname subsequent_pruefid subsequent_formatversion
  let order := columnOrder previous_pruefid subsequent_pruefid previous_formatversion subsequent_formatversion
  if tableEmpty df_old && tableEmpty df_new then
    some { cols := order, rows := [] }
  else if tableEmpty df_new then
    some { cols := order
           rows := (List.range df_old.rows.length).map (fun i =>
             reindex (mkRow df_old df_new (some i) none "REMOVED"
               previous_formatversion subsequent_formatversion) order) }
  else if tableEmpty df_old then
    some { cols := order
           rows := (List.range df_new.rows.length).map (fun j =>
             reindex (mkRow df_old df_new none (some j) "NEW"
               previous_formatversion subsequent_formatversion) order) }
  else
    let so := columnToList df_old ("Segmentname_" ++ previous_formatversion)
    let sn := columnToList df_new ("Segmentname_" ++ subsequent_formatversion)
    (alignLoopF (so.length + sn.length + 1) df_old df_new so sn
        previous_formatversion subsequent_formatversion 0 0).map
      (fun rs => { cols := order
                   rows := rs.map (fun d => (reindex d order).map finalizeCell) })

/-- The decision sequence underlying `align_columns`: the same branch
structure, recording decisions instead of rows. -/
def decisionsOf (previous_pruefid subsequent_pruefid : Table)
    (previous_formatversion subsequent_formatversion : String) : Option (List Decision) :=
  let df_old := renameSegmentname previous_pruefid previous_formatversion
  let df_new := renameSegmentname subsequent_pruefid subsequent_formatversion
  if tableEmpty df_old && tableEmpty df_new then
    some []
  else if tableEmpty df_new then
    some ((List.range df_old.rows.length).map Decision.removed)
  else if tableEmpty df_old then
    some ((List.range df_new.rows.length).map Decision.new)
  else
    let so := columnToList df_old ("Segmentname_" ++ previous_formatversion)
    let sn := columnToList df_new ("Segmentname_" ++ subsequent_formatversion)
    alignDecisionsF (so.length + sn.length + 1) so sn 0 0

/-- The merged output row that `align_columns` produces for one
decision: the materialised dict, reindexed by the merged header, with
the general (two-sided) path additionally applying the
`astype(str).replace("nan", "")` normalisation. -/
def mergedRowOf (prev sub : Table) (pFV sFV : String) (d : Decision) : List Cell :=
  let df_old := renameSegmentname prev pFV
  let df_new := renameSegmentname sub sFV
  let raw := reindex (renderDict df_old df_new pFV sFV d) (columnOrder prev sub pFV sFV)
  if tableEmpty df_old || tableEmpty df_new then raw else raw.map finalizeCell

/-- The previous-table cursor consumed by a decision, if any. -/
def prevIdxOf : Decision → Option Nat
  | .unchanged i _ => some i
  | .removed i => some i
  | .new _ => none

/-- The subsequent-table cursor consumed by a decision, if any. -/
def subIdxOf : Decision → Option Nat
  | .unchanged _ j => some j
  | .removed _ => none
  | .new j => some j

/-- All previous-table row indices covered by a decision list, in
order. -/
def prevIndices (ds : List Decision) : List Nat :=
  ds.filterMap prevIdxOf

/-- All subsequent-table row indices covered by a decision list, in
order. -/
def subIndices (ds : List Decision) : List Nat :=
  ds.filterMap subIdxOf

/-- The key cell a merged row carries for a side: the source key cell
when the side contributes a row, the empty string otherwise
(`create_row` lines 192, 204-205). -/
def keyVal (t : Table) (segCol : String) : Option Nat → Cell
  | some i => getCell t i segCol
  | none => some ""

/-- The data cell a merged row carries for a side: the source cell with
missing values replaced by the empty string when the side contributes a
row, the empty string otherwise (`_populate_row_values` line 177). -/
def dataVal (t : Table) (oi : Option Nat) (col : String) : Cell :=
  match oi with
  | some i => some ((getCell t i col).getD "")
  | none => some ""

/-- Sanity conditions on one input pair, all satisfied by the tables the
tool actually loads: both tables carry the mandatory `Segmentname`
column, neither already contains the suffixed key-column name, and the
merged header has no duplicate column names. -/
def goodInput (prev sub : Table) (pFV sFV : String) : Prop :=
  "Segmentname" ∈ prev.cols ∧ "Segmentname" ∈ sub.cols ∧
  ("Segmentname_" ++ pFV) ∉ prev.cols ∧ ("Segmentname_" ++ sFV) ∉ sub.cols ∧
  (columnOrder prev sub pFV sFV).Nodup

instance (prev sub : Table) (pFV sFV : String) : Decidable (goodInput prev sub pFV sFV) := by
  unfold goodInput; infer_instance

/-- The pairing loop of `determine_consecutive_formatversions` (main.py
lines 66-88), with the filesystem abstracted away: the sorted directory
list (`get_available_formatversions()`) and the emptiness check
(`is_formatversion_empty`) are parameters.  For each adjacent index pair
of the full list, the pair is skipped when either member is empty,
otherwise appended. -/
def determine_consecutive_formatversions (formatversion_list : List String)
    (isEmptyDir : String → Bool) : List (String × String) :=
  (List.range (formatversion_list.length - 1)).filterMap (fun i =>
    let subsequent_formatversion := formatversion_list.getD i ""
    let previous_formatversion := formatversion_list.getD (i + 1) ""
    if isEmptyDir subsequent_formatversion || isEmptyDir previous_formatversion then none
    else some (subsequent_formatversion, previous_formatversion))

/-- Modelled from the spec (the claim's reading, for comparison with the
source function): the pairs produced are exactly the adjacent pairs of
the sublist of non-empty version directories. -/
def specConsecutivePairs (formatversion_list : List String)
    (isEmptyDir : String → Bool) : List (String × String) :=
  let nonempty := formatversion_list.filter (fun v => !isEmptyDir v)
  nonempty.zip nonempty.tail

/-- The code points Python's `int(str)` treats as whitespace
(`Py_UNICODE_ISSPACE`): the ASCII control whitespace and space, NEL and
NBSP, and the Unicode space/line/paragraph separators.  This set has
been stable across Unicode versions. -/
def pySpaceCodes : List Nat :=
  [0x09, 0x0A, 0x0B, 0x0C, 0x0D, 0x1C, 0x1D, 0x1E, 0x1F, 0x20, 0x85, 0xA0,
   0x1680, 0x2000, 0x2001, 0x2002, 0x2003, 0x2004, 0x2005, 0x2006, 0x2007,
   0x2008, 0x2009, 0x200A, 0x2028, 0x2029, 0x202F, 0x205F, 0x3000]

/-- Whether `c` is whitespace for Python's `int(str)`. -/
def isPySpace (c : Char) : Bool :=
  pySpaceCodes.contains c.toNat

/-- First code points (digit value 0) of the contiguous 10-character
decimal-digit blocks of Unicode category Nd, Unicode 15.1 as shipped
with CPython 3.12/3.13 (Unicode 14, CPython 3.11, lacks only the Kawi
0x11F50 and Nag Mundari 0x1E4F0 blocks).  `int(str)` maps every such
character to the corresponding ASCII digit
(`_PyUnicode_TransformDecimalAndSpaceToASCII`). -/
def ndZeroBases : List Nat :=
  [0x0030, 0x0660, 0x06F0, 0x07C0, 0x0966, 0x09E6, 0x0A66, 0x0AE6, 0x0B66,
   0x0BE6, 0x0C66, 0x0CE6, 0x0D66, 0x0DE6, 0x0E50, 0x0ED0, 0x0F20, 0x1040,
   0x1090, 0x17E0, 0x1810, 0x1946, 0x19D0, 0x1A80, 0x1A90, 0x1B50, 0x1BB0,
   0x1C40, 0x1C50, 0xA620, 0xA8D0, 0xA900, 0xA9D0, 0xA9F0, 0xAA50, 0xABF0,
   0xFF10, 0x104A0, 0x10D30, 0x11066, 0x110F0, 0x11136, 0x111D0, 0x112F0,
   0x11450, 0x114D0, 0x11650, 0x116C0, 0x11730, 0x118E0, 0x11950, 0x11C50,
   0x11D50, 0x11DA0, 0x11F50, 0x16A60, 0x16AC0, 0x16B50, 0x1D7CE, 0x1D7D8,
   0x1D7E2, 0x1D7EC, 0x1D7F6, 0x1E140, 0x1E2F0, 0x1E4F0, 0x1E950, 0x1FBF0]

/-- Decimal value of a Unicode decimal digit (`Py_UNICODE_TODECIMAL`),
`none` for every other character. -/
def unicodeDigitVal? (c : Char) : Option Nat :=
  ndZeroBases.findSome? (fun b =>
    if b ≤ c.toNat ∧ c.toNat ≤ b + 9 then some (c.toNat - b) else none)

/-- Value of a digit string as accepted by Python's `int` after sign and
whitespace handling: a non-empty sequence of (Unicode) decimal digits in
which single underscores may separate digit groups (an underscore must
have a digit on both sides, so the groups obtained by splitting on
underscore are all non-empty).  The fold skips underscores. -/
def digitsVal? (l : List Char) : Option Nat :=
  if !l.isEmpty
      && (l.splitOn '_').all
        (fun g => !g.isEmpty && g.all (fun c => (unicodeDigitVal? c).isSome)) then
    some (l.foldl (fun n c =>
      match unicodeDigitVal? c with
      | some d => n * 10 + d
      | none => n) 0)
  else none

/-- Python's `int(str)`: CPython first rewrites every Unicode decimal
digit to the corresponding ASCII digit and every Unicode whitespace
character to a space, rejecting any string in which another non-ASCII
character remains, then parses optional whitespace, one optional ASCII
sign, and a non-empty digit string with optional digit-group
underscores, followed by optional whitespace.  Modelled directly: strip
surrounding `isPySpace` characters, allow one optional sign, then
require `digitsVal?` (a leftover non-ASCII character is not a digit,
not an accepted sign and not stripped, so it is rejected here exactly
as in CPython).  Note `int` accepts strings such as `"+5"`, `" 5"` and
the fullwidth `"５２"` that are not two ASCII digits. -/
def pyInt? (l : List Char) : Option Int :=
  let t := ((l.dropWhile isPySpace).reverse.dropWhile isPySpace).reverse
  match t with
  | '+' :: rest => (digitsVal? rest).map Int.ofNat
  | '-' :: rest => (digitsVal? rest).map (fun n => -(n : Int))
  | _ => (digitsVal? t).map Int.ofNat

/-- Python's `formatversion.startswith("FV")`. -/
def pyStartsWithFV (fv : String) : Bool :=
  match fv.data with
  | 'F' :: 'V' :: _ => true
  | _ => false

/-- The version tag parser `parse_formatversions` (main.py lines 21-35):
reject unless the string starts with `"FV"` and has length 6, parse
`formatversion[2:4]` and `formatversion[4:6]` with Python `int` (a
`ValueError` from `int` propagates, modelled as `.error`), add 2000 to
the year, and reject months outside 1..12.  Error messages are not
modelled beyond a marker string. -/
def parse_formatversions (formatversion : String) : Except String (Int × Int) :=
  if ¬ (pyStartsWithFV formatversion = true) ∨ formatversion.data.length ≠ 6 then
    Except.error ("invalid formatversion: " ++ formatversion)
  else
    match pyInt? ((formatversion.data.drop 2).take 2) with
    | none => Except.error "invalid literal for int"
    | some y =>
        match pyInt? ((formatversion.data.drop 4).take 2) with
        | none => Except.error "invalid literal for int"
        | some m =>
            if 1 ≤ m ∧ m ≤ 12 then Except.ok (2000 + y, m)
            else Except.error ("invalid formatversion: " ++ formatversion)

/-! ### Dictionary lemmas -/

theorem dictGet_dictSet_self (d : Dict) (k : String) (v : Cell) :
    dictGet (dictSet d k v) k = v := by
  induction d with
  | nil => simp [dictGet, dictSet]
  | cons p rest ih =>
      by_cases h : p.1 = k
      · simp [dictGet, dictSet, h]
      · simp [dictGet, dictSet, h, ih]

theorem dictGet_dictSet_ne (d : Dict) (k k' : String) (v : Cell) (h : k' ≠ k) :
    dictGet (dictSet d k v) k' = dictGet d k' := by
  have h' : ¬ (k = k') := fun hh => h hh.symm
  induction d with
  | nil => simp [dictGet, dictSet, h']
  | cons p rest ih =>
      by_cases hp : p.1 = k
      · have hp' : ¬ (p.1 = k') := by rw [hp]; exact h'
        simp [dictGet, dictSet, hp, hp', h']
      · by_cases hq : p.1 = k'
        · simp [dictGet, dictSet, hp, hq, h]
        · simp [dictGet, dictSet, hp, hq, ih]

theorem dictGet_foldlSet_ne {α : Type} (l : List α) (key : α → String) (val : α → Cell)
    (d : Dict) (k : String) (h : ∀ a ∈ l, key a ≠ k) :
    dictGet (l.foldl (fun r a => dictSet r (key a) (val a)) d) k = dictGet d k := by
  induction l generalizing d with
  | nil => rfl
  | cons a rest ih =>
      simp only [List.foldl_cons]
      rw [ih _ (fun b hb => h b (List.mem_cons_of_mem a hb)),
        dictGet_dictSet_ne _ _ _ _ (fun hh => h a (List.mem_cons_self a rest) hh.symm)]

theorem dictGet_foldlSet_mem {α : Type} (l : List α) (key : α → String) (val : α → Cell)
    (d : Dict) (a : α) (hmem : a ∈ l) (hnd : (l.map key).Nodup) :
    dictGet (l.foldl (fun r a => dictSet r (key a) (val a)) d) (key a) = val a := by
  induction l generalizing d with
  | nil => cases hmem
  | cons b rest ih =>
      simp only [List.map_cons, List.nodup_cons, List.mem_map] at hnd
      rcases List.mem_cons.mp hmem with h | h
      · subst h
        simp only [List.foldl_cons]
        rw [dictGet_foldlSet_ne rest key val _ _
          (fun c hc hcc => hnd.1 ⟨c, hc, hcc⟩), dictGet_dictSet_self]
      · simp only [List.foldl_cons]
        exact ih _ h hnd.2

theorem foldl_skip {α β : Type} (l : List α) (p : α → Prop) [DecidablePred p]
    (f : β → α → β) (d : β) :
    l.foldl (fun r a => if p a then r else f r a) d
      = (l.filter (fun a => decide (¬ p a))).foldl f d := by
  induction l generalizing d with
  | nil => rfl
  | cons a rest ih =>
      by_cases h : p a <;> simp [List.filter_cons, h, ih]

/-! ### Column bookkeeping lemmas -/

theorem filter_rename_list (cols : List String) (s : String) (hs : s ∉ cols) :
    (cols.map (fun c => if c = "Segmentname" then s else c)).filter (fun c => decide (c ≠ s))
      = cols.filter (fun c => decide (c ≠ "Segmentname")) := by
  induction cols with
  | nil => rfl
  | cons c rest ih =>
      have hcs : c ≠ s := fun h => hs (h ▸ List.mem_cons_self c rest)
      have ih' := ih (fun h => hs (List.mem_cons_of_mem c h))
      by_cases h : c = "Segmentname"
      · subst h
        simp [List.filter_cons]
        simpa using ih'
      · simp [List.filter_cons, h, hcs]
        simpa using ih' 

theorem dataColumns_rename (t : Table) (fv : String)
    (hs : ("Segmentname_" ++ fv) ∉ t.cols) :
    (renameSegmentname t fv).cols.filter (fun c => decide (c ≠ "Segmentname_" ++ fv))
      = dataColumns t :=
  filter_rename_list t.cols _ hs

theorem idxOf?_map_rename_seg (cols : List String) (s : String) (hs : s ∉ cols) :
    idxOf? s (cols.map (fun c => if c = "Segmentname" then s else c))
      = idxOf? "Segmentname" cols := by
  induction cols with
  | nil => rfl
  | cons c rest ih =>
      have hcs : ¬ (c = s) := fun h => hs (h ▸ List.mem_cons_self c rest)
      have ih' := ih (fun h => hs (List.mem_cons_of_mem c h))
      by_cases h : c = "Segmentname"
      · subst h; simp [idxOf?, ih']
      · simp [idxOf?, h, hcs, ih']

theorem idxOf?_map_rename_data (cols : List String) (s c0 : String)
    (h0 : ¬ ("Segmentname" = c0)) (h1 : ¬ (s = c0)) :
    idxOf? c0 (cols.map (fun c => if c = "Segmentname" then s else c))
      = idxOf? c0 cols := by
  have h0' : ¬ (c0 = "Segmentname") := fun hh => h0 hh.symm
  have h1' : ¬ (c0 = s) := fun hh => h1 hh.symm
  induction cols with
  | nil => rfl
  | cons c rest ih =>
      by_cases h : c = "Segmentname"
      · subst h; simp [idxOf?, h0, h1, h0', h1', ih]
      · by_cases hc : c = c0 <;> simp [idxOf?, h, hc, h0', h1', ih]

theorem getCell_rename_seg (t : Table) (fv : String)
    (hs : ("Segmentname_" ++ fv) ∉ t.cols) (i : Nat) :
    getCell (renameSegmentname t fv) i ("Segmentname_" ++ fv) = getCell t i "Segmentname" := by
  unfold getCell renameSegmentname
  simp only [idxOf?_map_rename_seg t.cols _ hs]

theorem getCell_rename_data (t : Table) (fv : String) (c0 : String)
    (h0 : c0 ≠ "Segmentname") (h1 : c0 ≠ "Segmentname_" ++ fv) (i : Nat) :
    getCell (renameSegmentname t fv) i c0 = getCell t i c0 := by
  unfold getCell renameSegmentname
  simp only [idxOf?_map_rename_data t.cols _ c0 (fun h => h0 h.symm) (fun h => h1 h.symm)]

theorem idxOf?_nodup_get? (l : List String) (hl : l.Nodup) (n : Nat) (a : String)
    (h : l.get? n = some a) : idxOf? a l = some n := by
  induction l generalizing n with
  | nil => simp at h
  | cons b rest ih =>
      rcases List.nodup_cons.mp hl with ⟨hb, hrest⟩
      cases n with
      | zero =>
          simp only [List.get?] at h
          injection h with h; subst h
          simp [idxOf?]
      | succ n =>
          simp only [List.get?] at h
          have ha : a ∈ rest := List.get?_mem h
          have hba : ¬ (b = a) := fun hh => hb (hh ▸ ha)
          simp [idxOf?, hba, ih hrest n h]

/-! ### Distinctness facts extracted from a duplicate-free merged header -/

theorem order_facts (prev sub : Table) (pFV sFV : String)
    (h : (columnOrder prev sub pFV sFV).Nodup) :
    (("Segmentname_" ++ pFV) ∉ ((dataColumns prev).map (fun c => c ++ "_" ++ pFV))) ∧
    ("Segmentname_" ++ pFV) ≠ "diff" ∧
    ("Segmentname_" ++ pFV) ≠ ("Segmentname_" ++ sFV) ∧
    (("Segmentname_" ++ pFV) ∉ ((dataColumns sub).map (fun c => c ++ "_" ++ sFV))) ∧
    ((dataColumns prev).map (fun c => c ++ "_" ++ pFV)).Nodup ∧
    ("diff" ∉ ((dataColumns prev).map (fun c => c ++ "_" ++ pFV))) ∧
    (("Segmentname_" ++ sFV) ∉ ((dataColumns prev).map (fun c => c ++ "_" ++ pFV))) ∧
    (∀ k ∈ (dataColumns prev).map (fun c => c ++ "_" ++ pFV),
       k ∉ (dataColumns sub).map (fun c => c ++ "_" ++ sFV)) ∧
    ("diff" ≠ ("Segmentname_" ++ sFV)) ∧
    ("diff" ∉ ((dataColumns sub).map (fun c => c ++ "_" ++ sFV))) ∧
    (("Segmentname_" ++ sFV) ∉ ((dataColumns sub).map (fun c => c ++ "_" ++ sFV))) ∧
    ((dataColumns sub).map (fun c => c ++ "_" ++ sFV)).Nodup := by
  unfold columnOrder at h
  simp only [List.singleton_append, List.cons_append, List.nodup_cons, List.nodup_append,
    List.mem_append, List.mem_cons, not_or, List.disjoint_left, List.not_mem_nil,
    not_false_iff, and_true, true_and, List.mem_singleton] at h
  obtain ⟨⟨⟨⟨hSpOld, hSpDiff⟩, hSpSs⟩, hSpNew⟩,
    ⟨⟨⟨_, hOldNd, _⟩, _, hDiffOld⟩, _, hSsOld⟩, hNewNd, hBigNew⟩ := h
  refine ⟨hSpOld, hSpDiff, hSpSs, hSpNew, hOldNd, ?_, ?_, ?_, ?_, ?_, ?_, hNewNd⟩
  · exact fun hmem => hDiffOld (Or.inr hmem) rfl
  · exact fun hmem => hSsOld (Or.inl (Or.inr hmem)) rfl
  · exact fun k hk => hBigNew (Or.inl (Or.inl (Or.inr hk)))
  · exact fun hh => hSsOld (Or.inr (Or.inl rfl)) hh
  · exact hBigNew (Or.inl (Or.inr (Or.inl rfl)))
  · exact hBigNew (Or.inr (Or.inl rfl))

/-! ### Lookup behaviour of the `create_row` stages -/

theorem populate_seg_get_ne (t : Table) (row : Dict) (idx : Option Nat) (fv k : String)
    (hk : k ≠ "Segmentname_" ++ fv) :
    dictGet (populate_row_values (some t) row idx fv true) k = dictGet row k := by
  cases idx with
  | none => rfl
  | some i =>
      simp only [populate_row_values, if_pos rfl]
      exact dictGet_dictSet_ne _ _ _ _ hk

theorem populate_seg_get_self (t : Table) (row : Dict) (i : Nat) (fv : String) :
    dictGet (populate_row_values (some t) row (some i) fv true) ("Segmentname_" ++ fv)
      = getCell t i ("Segmentname_" ++ fv) := by
  simp only [populate_row_values, if_pos rfl]
  exact dictGet_dictSet_self _ _ _

theorem populate_data_get_ne (t : Table) (row : Dict) (idx : Option Nat) (fv k : String)
    (h : ∀ c ∈ t.cols.filter (fun c => decide (c ≠ "Segmentname_" ++ fv)),
      c ++ "_" ++ fv ≠ k) :
    dictGet (populate_row_values (some t) row idx fv false) k = dictGet row k := by
  cases idx with
  | none => rfl
  | some i =>
      simp only [populate_row_values, Bool.false_eq_true, if_false]
      rw [foldl_skip t.cols (fun c => c = "Segmentname_" ++ fv)
        (fun r col => dictSet r (col ++ "_" ++ fv) (some ((getCell t i col).getD ""))) row]
      exact dictGet_foldlSet_ne _ _ _ _ _ h

theorem populate_data_get_mem (t : Table) (row : Dict) (i : Nat) (fv c : String)
    (hc : c ∈ t.cols.filter (fun x => decide (x ≠ "Segmentname_" ++ fv)))
    (hnd : ((t.cols.filter (fun x => decide (x ≠ "Segmentname_" ++ fv))).map
      (fun x => x ++ "_" ++ fv)).Nodup) :
    dictGet (populate_row_values (some t) row (some i) fv false) (c ++ "_" ++ fv)
      = some ((getCell t i c).getD "") := by
  simp only [populate_row_values, Bool.false_eq_true, if_false]
  rw [foldl_skip t.cols (fun x => x = "Segmentname_" ++ fv)
    (fun r col => dictSet r (col ++ "_" ++ fv) (some ((getCell t i col).getD ""))) row]
  exact dictGet_foldlSet_mem _ _ _ _ c hc hnd

theorem initFold_get_ne (cols : List String) (row : Dict) (s suf k : String)
    (h : ∀ c ∈ cols.filter (fun c => decide (c ≠ s)), c ++ "_" ++ suf ≠ k) :
    dictGet (cols.foldl
      (fun r col => if col = s then r else dictSet r (col ++ "_" ++ suf) (some "")) row) k
      = dictGet row k := by
  rw [foldl_skip cols (fun c => c = s)
    (fun r col => dictSet r (col ++ "_" ++ suf) (some "")) row]
  exact dictGet_foldlSet_ne _ _ _ _ _ h

theorem initFold_get_mem (cols : List String) (row : Dict) (s suf c : String)
    (hc : c ∈ cols.filter (fun x => decide (x ≠ s)))
    (hnd : ((cols.filter (fun x => decide (x ≠ s))).map (fun x => x ++ "_" ++ suf)).Nodup) :
    dictGet (cols.foldl
      (fun r col => if col = s then r else dictSet r (col ++ "_" ++ suf) (some "")) row)
      (c ++ "_" ++ suf) = some "" := by
  rw [foldl_skip cols (fun x => x = s)
    (fun r col => dictSet r (col ++ "_" ++ suf) (some "")) row]
  exact dictGet_foldlSet_mem _ _ _ _ c hc hnd

/-! ### Lookup behaviour of a fully built merged row -/

theorem mkRow_get_diff (P N : Table) (pFV sFV : String) (oi oj : Option Nat) (dv : String) :
    dictGet (mkRow P N oi oj dv pFV sFV) "diff" = some dv :=
  dictGet_dictSet_self _ _ _

theorem populate_none (df : Option Table) (row : Dict) (fv : String) (b : Bool) :
    populate_row_values df row none fv b = row := by
  cases df <;> rfl

theorem mkRow_get_keyPrev (prev sub : Table) (pFV sFV : String)
    (h : goodInput prev sub pFV sFV) (oi oj : Option Nat) (dv : String) :
    dictGet (mkRow (renameSegmentname prev pFV) (renameSegmentname sub sFV) oi oj dv pFV sFV)
      ("Segmentname_" ++ pFV)
      = keyVal (renameSegmentname prev pFV) ("Segmentname_" ++ pFV) oi := by
  obtain ⟨hSegP, hSegS, hSpP, hSsS, hnd⟩ := h
  obtain ⟨f1, f2, f3, f4, f5, f6, f7, f8, f9, f10, f11, f12⟩ := order_facts prev sub pFV sFV hnd
  have hfp := dataColumns_rename prev pFV hSpP
  have hfn := dataColumns_rename sub sFV hSsS
  have hN : ∀ c ∈ (renameSegmentname sub sFV).cols.filter
      (fun c => decide (c ≠ "Segmentname_" ++ sFV)),
      c ++ "_" ++ sFV ≠ "Segmentname_" ++ pFV := by
    rw [hfn]; exact fun c hc heq => f4 (heq ▸ List.mem_map_of_mem _ hc)
  have hP : ∀ c ∈ (renameSegmentname prev pFV).cols.filter
      (fun c => decide (c ≠ "Segmentname_" ++ pFV)),
      c ++ "_" ++ pFV ≠ "Segmentname_" ++ pFV := by
    rw [hfp]; exact fun c hc heq => f1 (heq ▸ List.mem_map_of_mem _ hc)
  simp only [mkRow, create_row]
  rw [dictGet_dictSet_ne _ _ _ _ f2]
  rw [populate_data_get_ne (renameSegmentname sub sFV) _ oj sFV ("Segmentname_" ++ pFV) hN]
  rw [populate_data_get_ne (renameSegmentname prev pFV) _ oi pFV ("Segmentname_" ++ pFV) hP]
  rw [populate_seg_get_ne (renameSegmentname sub sFV) _ oj sFV ("Segmentname_" ++ pFV) f3]
  cases oi with
  | some i => rw [populate_seg_get_self]; rfl
  | none =>
      rw [populate_none]
      rw [initFold_get_ne (renameSegmentname sub sFV).cols _
        ("Segmentname_" ++ sFV) sFV ("Segmentname_" ++ pFV) hN]
      rw [initFold_get_ne (renameSegmentname prev pFV).cols _
        ("Segmentname_" ++ pFV) pFV ("Segmentname_" ++ pFV) hP]
      rw [dictGet_dictSet_ne _ _ _ _ f3, dictGet_dictSet_ne _ _ _ _ f2, dictGet_dictSet_self]
      rfl

theorem mkRow_get_keySub (prev sub : Table) (pFV sFV : String)
    (h : goodInput prev sub pFV sFV) (oi oj : Option Nat) (dv : String) :
    dictGet (mkRow (renameSegmentname prev pFV) (renameSegmentname sub sFV) oi oj dv pFV sFV)
      ("Segmentname_" ++ sFV)
      = keyVal (renameSegmentname sub sFV) ("Segmentname_" ++ sFV) oj := by
  obtain ⟨hSegP, hSegS, hSpP, hSsS, hnd⟩ := h
  obtain ⟨f1, f2, f3, f4, f5, f6, f7, f8, f9, f10, f11, f12⟩ := order_facts prev sub pFV sFV hnd
  have hfp := dataColumns_rename prev pFV hSpP
  have hfn := dataColumns_rename sub sFV hSsS
  have f3' : ("Segmentname_" ++ sFV) ≠ ("Segmentname_" ++ pFV) := fun hh => f3 hh.symm
  have f9' : ("Segmentname_" ++ sFV) ≠ "diff" := fun hh => f9 hh.symm
  have hN : ∀ c ∈ (renameSegmentname sub sFV).cols.filter
      (fun c => decide (c ≠ "Segmentname_" ++ sFV)),
      c ++ "_" ++ sFV ≠ "Segmentname_" ++ sFV := by
    rw [hfn]; exact fun c hc heq => f11 (heq ▸ List.mem_map_of_mem _ hc)
  have hP : ∀ c ∈ (renameSegmentname prev pFV).cols.filter
      (fun c => decide (c ≠ "Segmentname_" ++ pFV)),
      c ++ "_" ++ pFV ≠ "Segmentname_" ++ sFV := by
    rw [hfp]; exact fun c hc heq => f7 (heq ▸ List.mem_map_of_mem _ hc)
  simp only [mkRow, create_row]
  rw [dictGet_dictSet_ne _ _ _ _ f9']
  rw [populate_data_get_ne (renameSegmentname sub sFV) _ oj sFV ("Segmentname_" ++ sFV) hN]
  rw [populate_data_get_ne (renameSegmentname prev pFV) _ oi pFV ("Segmentname_" ++ sFV) hP]
  cases oj with
  | some j => rw [populate_seg_get_self]; rfl
  | none =>
      rw [populate_none]
      rw [populate_seg_get_ne (renameSegmentname prev pFV) _ oi pFV ("Segmentname_" ++ sFV) f3']
      rw [initFold_get_ne (renameSegmentname sub sFV).cols _
        ("Segmentname_" ++ sFV) sFV ("Segmentname_" ++ sFV) hN]
      rw [initFold_get_ne (renameSegmentname prev pFV).cols _
        ("Segmentname_" ++ pFV) pFV ("Segmentname_" ++ sFV) hP]
      rw [dictGet_dictSet_self]
      rfl

theorem mkRow_get_dataPrev (prev sub : Table) (pFV sFV : String)
    (h : goodInput prev sub pFV sFV) (oi oj : Option Nat) (dv : String)
    (c : String) (hc : c ∈ dataColumns prev) :
    dictGet (mkRow (renameSegmentname prev pFV) (renameSegmentname sub sFV) oi oj dv pFV sFV)
      (c ++ "_" ++ pFV)
      = dataVal (renameSegmentname prev pFV) oi c := by
  obtain ⟨hSegP, hSegS, hSpP, hSsS, hnd⟩ := h
  obtain ⟨f1, f2, f3, f4, f5, f6, f7, f8, f9, f10, f11, f12⟩ := order_facts prev sub pFV sFV hnd
  have hfp := dataColumns_rename prev pFV hSpP
  have hfn := dataColumns_rename sub sFV hSsS
  have hck : (c ++ "_" ++ pFV) ∈ (dataColumns prev).map (fun x => x ++ "_" ++ pFV) :=
    List.mem_map_of_mem _ hc
  have hN : ∀ x ∈ (renameSegmentname sub sFV).cols.filter
      (fun x => decide (x ≠ "Segmentname_" ++ sFV)),
      x ++ "_" ++ sFV ≠ c ++ "_" ++ pFV := by
    rw [hfn]; exact fun x hx heq => f8 _ hck (heq ▸ List.mem_map_of_mem _ hx)
  simp only [mkRow, create_row]
  rw [dictGet_dictSet_ne _ "diff" (c ++ "_" ++ pFV) (some dv) (fun heq => f6 (heq ▸ hck))]
  rw [populate_data_get_ne (renameSegmentname sub sFV) _ oj sFV (c ++ "_" ++ pFV) hN]
  cases oi with
  | some i =>
      rw [populate_data_get_mem (renameSegmentname prev pFV) _ i pFV c
        (by rw [hfp]; exact hc) (by rw [hfp]; exact f5)]
      rfl
  | none =>
      rw [populate_none]
      rw [populate_seg_get_ne (renameSegmentname sub sFV) _ oj sFV (c ++ "_" ++ pFV)
        (fun heq => f7 (heq ▸ hck))]
      rw [populate_none]
      rw [initFold_get_ne (renameSegmentname sub sFV).cols _
        ("Segmentname_" ++ sFV) sFV (c ++ "_" ++ pFV) hN]
      rw [initFold_get_mem (renameSegmentname prev pFV).cols _
        ("Segmentname_" ++ pFV) pFV c (by rw [hfp]; exact hc) (by rw [hfp]; exact f5)]
      rfl

theorem mkRow_get_dataSub (prev sub : Table) (pFV sFV : String)
    (h : goodInput prev sub pFV sFV) (oi oj : Option Nat) (dv : String)
    (c : String) (hc : c ∈ dataColumns sub) :
    dictGet (mkRow (renameSegmentname prev pFV) (renameSegmentname sub sFV) oi oj dv pFV sFV)
      (c ++ "_" ++ sFV)
      = dataVal (renameSegmentname sub sFV) oj c := by
  obtain ⟨hSegP, hSegS, hSpP, hSsS, hnd⟩ := h
  obtain ⟨f1, f2, f3, f4, f5, f6, f7, f8, f9, f10, f11, f12⟩ := order_facts prev sub pFV sFV hnd
  have hfp := dataColumns_rename prev pFV hSpP
  have hfn := dataColumns_rename sub sFV hSsS
  have hck : (c ++ "_" ++ sFV) ∈ (dataColumns sub).map (fun x => x ++ "_" ++ sFV) :=
    List.mem_map_of_mem _ hc
  have hP : ∀ x ∈ (renameSegmentname prev pFV).cols.filter
      (fun x => decide (x ≠ "Segmentname_" ++ pFV)),
      x ++ "_" ++ pFV ≠ c ++ "_" ++ sFV := by
    rw [hfp]
    exact fun x hx heq => f8 _ (List.mem_map_of_mem _ hx) (heq ▸ hck)
  simp only [mkRow, create_row]
  rw [dictGet_dictSet_ne _ "diff" (c ++ "_" ++ sFV) (some dv) (fun heq => f10 (heq ▸ hck))]
  cases oj with
  | some j =>
      rw [populate_data_get_mem (renameSegmentname sub sFV) _ j sFV c
        (by rw [hfn]; exact hc) (by rw [hfn]; exact f12)]
      rfl
  | none =>
      rw [populate_none]
      rw [populate_data_get_ne (renameSegmentname prev pFV) _ oi pFV (c ++ "_" ++ sFV) hP]
      rw [populate_none]
      rw [populate_seg_get_ne (renameSegmentname prev pFV) _ oi pFV (c ++ "_" ++ sFV)
        (fun heq => f4 (heq ▸ hck))]
      rw [initFold_get_mem (renameSegmentname sub sFV).cols _
        ("Segmentname_" ++ sFV) sFV c (by rw [hfn]; exact hc) (by rw [hfn]; exact f12)]
      rfl

/-- Master shape of one materialised, reindexed merged row: the
previous-side key cell, the previous-side data cells, the diff tag, the
subsequent-side key cell, the subsequent-side data cells. -/
theorem mkRow_reindex (prev sub : Table) (pFV sFV : String)
    (h : goodInput prev sub pFV sFV) (oi oj : Option Nat) (dv : String) :
    reindex (mkRow (renameSegmentname prev pFV) (renameSegmentname sub sFV) oi oj dv pFV sFV)
        (columnOrder prev sub pFV sFV)
      = keyVal (renameSegmentname prev pFV) ("Segmentname_" ++ pFV) oi
          :: ((dataColumns prev).map (fun c => dataVal (renameSegmentname prev pFV) oi c)
            ++ some dv
              :: keyVal (renameSegmentname sub sFV) ("Segmentname_" ++ sFV) oj
                :: (dataColumns sub).map (fun c => dataVal (renameSegmentname sub sFV) oj c)) := by
  have e1 := mkRow_get_keyPrev prev sub pFV sFV h oi oj dv
  have e2 := mkRow_get_diff (renameSegmentname prev pFV) (renameSegmentname sub sFV) pFV sFV oi oj dv
  have e3 := mkRow_get_keySub prev sub pFV sFV h oi oj dv
  unfold reindex columnOrder
  simp only [List.map_append, List.map_cons, List.map_map, List.map_nil, Function.comp_def]
  rw [e1, e2, e3,
    List.map_congr_left (fun c hc => mkRow_get_dataPrev prev sub pFV sFV h oi oj dv c hc),
    List.map_congr_left (fun c hc => mkRow_get_dataSub prev sub pFV sFV h oi oj dv c hc)]
  simp [List.singleton_append, List.cons_append, List.append_assoc, List.nil_append]

/-! ### Elementary facts about cell matching and the forward search -/

theorem cellEq_symm (a b : Cell) : cellEq a b = cellEq b a := by
  cases a <;> cases b <;> simp [cellEq]
  exact ⟨fun h => h.symm, fun h => h.symm⟩

theorem cellEq_true_iff (a b : Cell) : cellEq a b = true ↔ ∃ v, a = some v ∧ b = some v := by
  cases a <;> cases b <;> simp [cellEq]
  exact ⟨fun h => h.symm, fun h => h.symm⟩

theorem findIdxOpt_lt_length (p : Cell → Bool) (l : List Cell) (k : Nat)
    (h : findIdxOpt p l = some k) : k < l.length := by
  induction l generalizing k with
  | nil => simp [findIdxOpt] at h
  | cons c rest ih =>
      by_cases hp : p c
      · simp only [findIdxOpt, if_pos hp] at h
        injection h with h
        simp [← h]
      · simp only [findIdxOpt, if_neg hp, Option.map_eq_some'] at h
        obtain ⟨k', hk', rfl⟩ := h
        simpa using Nat.succ_lt_succ (ih k' hk')

theorem findIdxOpt_found (p : Cell → Bool) (l : List Cell) (k : Nat)
    (h : findIdxOpt p l = some k) :
    p (l.getD k none) = true ∧ ∀ t, t < k → p (l.getD t none) = false := by
  induction l generalizing k with
  | nil => simp [findIdxOpt] at h
  | cons c rest ih =>
      by_cases hp : p c
      · simp only [findIdxOpt, if_pos hp] at h
        injection h with h
        subst h
        exact ⟨hp, fun t ht => absurd ht (Nat.not_lt_zero t)⟩
      · simp only [findIdxOpt, if_neg hp, Option.map_eq_some'] at h
        obtain ⟨k', hk', rfl⟩ := h
        obtain ⟨h1, h2⟩ := ih k' hk'
        refine ⟨h1, fun t ht => ?_⟩
        cases t with
        | zero => simpa using hp
        | succ t => exact h2 t (by omega)

theorem findIdxOpt_none (p : Cell → Bool) (l : List Cell)
    (h : findIdxOpt p l = none) : ∀ c ∈ l, p c = false := by
  induction l with
  | nil => simp
  | cons c rest ih =>
      by_cases hp : p c
      · simp [findIdxOpt, hp] at h
      · simp only [findIdxOpt, if_neg hp, Option.map_eq_none'] at h
        intro x hx
        rcases List.mem_cons.mp hx with rfl | hx
        · simpa using hp
        · exact ih h x hx

theorem getD_drop (l : List Cell) (j t : Nat) :
    (l.drop j).getD t none = l.getD (j + t) none := by
  simp [List.getD_eq_getElem?_getD, List.getElem?_drop]

theorem range'_append_nat (s m n : Nat) :
    List.range' s m ++ List.range' (s + m) n = List.range' s (m + n) := by
  have h := List.range'_append s m n 1
  rw [one_mul, Nat.add_comm n m] at h
  exact h

theorem range'_eq_map (s n : Nat) :
    List.range' s n = (List.range n).map (fun t => s + t) := by
  simpa using List.range'_eq_map_range s n

/-! ### The loop produces exactly the rows of its decision skeleton -/

theorem alignLoopF_eq (df_old df_new : Table) (pFV sFV : String) :
    ∀ (F : Nat) (so sn : List Cell) (i j : Nat),
    alignLoopF F df_old df_new so sn pFV sFV i j
      = (alignDecisionsF F so sn i j).map (List.map (renderDict df_old df_new pFV sFV)) := by
  intro F
  induction F with
  | zero => intro so sn i j; rfl
  | succ F ih =>
      intro so sn i j
      simp only [alignLoopF, alignDecisionsF]
      by_cases h : i < so.length ∨ j < sn.length
      · simp only [if_pos h]
        by_cases hi : i ≥ so.length
        · simp only [if_pos hi, ih]
          cases alignDecisionsF F so sn i (j + 1) <;> rfl
        · simp only [if_neg hi]
          by_cases hj : j ≥ sn.length
          · simp only [if_pos hj, ih]
            cases alignDecisionsF F so sn (i + 1) j <;> rfl
          · simp only [if_neg hj]
            cases he : cellEq (so.getD i none) (sn.getD j none) with
            | true =>
                simp only [he, if_pos rfl, ih]
                cases alignDecisionsF F so sn (i + 1) (j + 1) <;> rfl
            | false =>
                simp only [he, Bool.false_eq_true, if_false]
                cases hm : findIdxOpt (fun c => pyIndexMatch (so.getD i none) c) (sn.drop j) with
                | some k =>
                    simp only [ih]
                    cases alignDecisionsF F so sn i (j + k) with
                    | none => rfl
                    | some ds =>
                        simp [List.map_append, List.map_map]
                        intro a _
                        rfl
                | none =>
                    simp only [ih]
                    cases alignDecisionsF F so sn (i + 1) j <;> rfl
      · simp only [if_neg h]; rfl

/-! ### Coverage of the decision skeleton -/

theorem getD_mem_of_lt (l : List Cell) (i : Nat) (h : i < l.length) : l.getD i none ∈ l := by
  induction l generalizing i with
  | nil => simp at h
  | cons c rest ih =>
      cases i with
      | zero => simp
      | succ i =>
          simp only [List.getD_cons_succ]
          exact List.mem_cons_of_mem c (ih i (by simpa using h))

theorem filterMap_map_new_prev (l : List Nat) (j : Nat) :
    List.filterMap prevIdxOf (l.map (fun t => Decision.new (j + t))) = [] := by
  induction l with
  | nil => rfl
  | cons a l ih => simp [List.filterMap_cons, prevIdxOf, ih]

theorem filterMap_map_new_sub (l : List Nat) (j : Nat) :
    List.filterMap subIdxOf (l.map (fun t => Decision.new (j + t))) = l.map (fun t => j + t) := by
  induction l with
  | nil => rfl
  | cons a l ih => simp [List.filterMap_cons, subIdxOf, ih]

/-- Whenever the alignment loop terminates (under any fuel), the previous
cursor positions consumed by its decisions are exactly `i, …, |so| - 1`
in order, and the subsequent positions exactly `j, …, |sn| - 1`: every
row of both tables is covered exactly once. -/
theorem decisionsF_cov :
    ∀ (F : Nat) (so sn : List Cell) (i j : Nat) (ds : List Decision),
    alignDecisionsF F so sn i j = some ds →
    prevIndices ds = List.range' i (so.length - i) ∧
    subIndices ds = List.range' j (sn.length - j) := by
  intro F
  induction F with
  | zero => intro so sn i j ds h; simp [alignDecisionsF] at h
  | succ F ih =>
      intro so sn i j ds h
      simp only [alignDecisionsF] at h
      by_cases hcond : i < so.length ∨ j < sn.length
      · rw [if_pos hcond] at h
        by_cases hi : i ≥ so.length
        · rw [if_pos hi] at h
          cases hrec : alignDecisionsF F so sn i (j + 1) with
          | none => rw [hrec] at h; exact absurd h (by simp)
          | some ds' =>
              rw [hrec] at h
              injection h with h
              subst h
              obtain ⟨h1, h2⟩ := ih so sn i (j + 1) ds' hrec
              have hj : j < sn.length := by
                rcases hcond with hc | hc
                · omega
                · exact hc
              constructor
              · simpa [prevIndices, List.filterMap_cons, prevIdxOf] using h1
              · simp only [subIndices, List.filterMap_cons, subIdxOf] at h2 ⊢
                rw [h2, show sn.length - j = (sn.length - (j + 1)) + 1 by omega]
                rfl
        · rw [if_neg hi] at h
          have hi' : i < so.length := by omega
          by_cases hj : j ≥ sn.length
          · rw [if_pos hj] at h
            cases hrec : alignDecisionsF F so sn (i + 1) j with
            | none => rw [hrec] at h; exact absurd h (by simp)
            | some ds' =>
                rw [hrec] at h
                injection h with h
                subst h
                obtain ⟨h1, h2⟩ := ih so sn (i + 1) j ds' hrec
                constructor
                · simp only [prevIndices, List.filterMap_cons, prevIdxOf] at h1 ⊢
                  rw [h1, show so.length - i = (so.length - (i + 1)) + 1 by omega]
                  rfl
                · simpa [subIndices, List.filterMap_cons, subIdxOf] using h2
          · rw [if_neg hj] at h
            have hj' : j < sn.length := by omega
            cases he : cellEq (so.getD i none) (sn.getD j none) with
            | true =>
                rw [he, if_pos rfl] at h
                cases hrec : alignDecisionsF F so sn (i + 1) (j + 1) with
                | none => rw [hrec] at h; exact absurd h (by simp)
                | some ds' =>
                    rw [hrec] at h
                    injection h with h
                    subst h
                    obtain ⟨h1, h2⟩ := ih so sn (i + 1) (j + 1) ds' hrec
                    constructor
                    · simp only [prevIndices, List.filterMap_cons, prevIdxOf] at h1 ⊢
                      rw [h1, show so.length - i = (so.length - (i + 1)) + 1 by omega]
                      rfl
                    · simp only [subIndices, List.filterMap_cons, subIdxOf] at h2 ⊢
                      rw [h2, show sn.length - j = (sn.length - (j + 1)) + 1 by omega]
                      rfl
            | false =>
                rw [he] at h
                simp only [Bool.false_eq_true, if_false] at h
                cases hm : findIdxOpt (fun c => pyIndexMatch (so.getD i none) c) (sn.drop j) with
                | some k =>
                    simp only [hm] at h
                    cases hrec : alignDecisionsF F so sn i (j + k) with
                    | none => rw [hrec] at h; exact absurd h (by simp)
                    | some ds' =>
                        rw [hrec] at h
                        injection h with h
                        subst h
                        obtain ⟨h1, h2⟩ := ih so sn i (j + k) ds' hrec
                        have hk : k < sn.length - j := by
                          have := findIdxOpt_lt_length _ _ _ hm
                          simpa using this
                        constructor
                        · simp only [prevIndices, List.filterMap_append,
                            filterMap_map_new_prev, List.nil_append] at h1 ⊢
                          exact h1
                        · simp only [subIndices, List.filterMap_append,
                            filterMap_map_new_sub] at h2 ⊢
                          rw [h2, ← range'_eq_map j k, range'_append_nat,
                            show k + (sn.length - (j + k)) = sn.length - j by omega]
                | none =>
                    simp only [hm] at h
                    cases hrec : alignDecisionsF F so sn (i + 1) j with
                    | none => rw [hrec] at h; exact absurd h (by simp)
                    | some ds' =>
                        rw [hrec] at h
                        injection h with h
                        subst h
                        obtain ⟨h1, h2⟩ := ih so sn (i + 1) j ds' hrec
                        constructor
                        · simp only [prevIndices, List.filterMap_cons, prevIdxOf] at h1 ⊢
                          rw [h1, show so.length - i = (so.length - (i + 1)) + 1 by omega]
                          rfl
                        · simpa [subIndices, List.filterMap_cons, subIdxOf] using h2
      · rw [if_neg hcond] at h
        injection h with h
        subst h
        push_neg at hcond
        constructor
        · simp [prevIndices, show so.length - i = 0 by omega]
        · simp [subIndices, show sn.length - j = 0 by omega]

/-- An `unchanged` decision is only ever emitted at in-range cursors
whose key cells compare `==`-equal. -/
theorem decisionsF_unchanged_mem :
    ∀ (F : Nat) (so sn : List Cell) (i j : Nat) (ds : List Decision),
    alignDecisionsF F so sn i j = some ds →
    ∀ i' j', Decision.unchanged i' j' ∈ ds →
      i' < so.length ∧ j' < sn.length ∧
      cellEq (so.getD i' none) (sn.getD j' none) = true := by
  intro F
  induction F with
  | zero => intro so sn i j ds h; simp [alignDecisionsF] at h
  | succ F ih =>
      intro so sn i j ds h i' j' hmem
      simp only [alignDecisionsF] at h
      by_cases hcond : i < so.length ∨ j < sn.length
      · rw [if_pos hcond] at h
        by_cases hi : i ≥ so.length
        · rw [if_pos hi] at h
          cases hrec : alignDecisionsF F so sn i (j + 1) with
          | none => rw [hrec] at h; exact absurd h (by simp)
          | some ds' =>
              rw [hrec] at h
              injection h with h
              subst h
              rcases List.mem_cons.mp hmem with hd | hd
              · cases hd
              · exact ih so sn i (j + 1) ds' hrec i' j' hd
        · rw [if_neg hi] at h
          by_cases hj : j ≥ sn.length
          · rw [if_pos hj] at h
            cases hrec : alignDecisionsF F so sn (i + 1) j with
            | none => rw [hrec] at h; exact absurd h (by simp)
            | some ds' =>
                rw [hrec] at h
                injection h with h
                subst h
                rcases List.mem_cons.mp hmem with hd | hd
                · cases hd
                · exact ih so sn (i + 1) j ds' hrec i' j' hd
          · rw [if_neg hj] at h
            cases he : cellEq (so.getD i none) (sn.getD j none) with
            | true =>
                rw [he, if_pos rfl] at h
                cases hrec : alignDecisionsF F so sn (i + 1) (j + 1) with
                | none => rw [hrec] at h; exact absurd h (by simp)
                | some ds' =>
                    rw [hrec] at h
                    injection h with h
                    subst h
                    rcases List.mem_cons.mp hmem with hd | hd
                    · injection hd with e1 e2
                      subst e1; subst e2
                      exact ⟨by omega, by omega, he⟩
                    · exact ih so sn (i + 1) (j + 1) ds' hrec i' j' hd
            | false =>
                rw [he] at h
                simp only [Bool.false_eq_true, if_false] at h
                cases hm : findIdxOpt (fun c => pyIndexMatch (so.getD i none) c) (sn.drop j) with
                | some k =>
                    simp only [hm] at h
                    cases hrec : alignDecisionsF F so sn i (j + k) with
                    | none => rw [hrec] at h; exact absurd h (by simp)
                    | some ds' =>
                        rw [hrec] at h
                        injection h with h
                        subst h
                        rcases List.mem_append.mp hmem with hd | hd
                        · obtain ⟨t, -, ht⟩ := List.mem_map.mp hd
                          cases ht
                        · exact ih so sn i (j + k) ds' hrec i' j' hd
                | none =>
                    simp only [hm] at h
                    cases hrec : alignDecisionsF F so sn (i + 1) j with
                    | none => rw [hrec] at h; exact absurd h (by simp)
                    | some ds' =>
                        rw [hrec] at h
                        injection h with h
                        subst h
                        rcases List.mem_cons.mp hmem with hd | hd
                        · cases hd
                        · exact ih so sn (i + 1) j ds' hrec i' j' hd
      · rw [if_neg hcond] at h
        injection h with h
        subst h
        cases hmem

/-- With a non-null current previous key, a successful forward search
never hits offset 0 (the loop state where nothing advances): offset 0
would mean the `==` test had already succeeded. With a null (NaN) key on
both sides, offset 0 is reachable — see `spec_c5_nontermination`. -/
theorem found_pos (so sn : List Cell) (i j k : Nat)
    (hgood : ¬((none : Cell) ∈ so ∧ (none : Cell) ∈ sn))
    (hi : i < so.length) (hj : j < sn.length)
    (he : cellEq (so.getD i none) (sn.getD j none) = false)
    (hm : findIdxOpt (fun c => pyIndexMatch (so.getD i none) c) (sn.drop j) = some k) :
    1 ≤ k := by
  by_contra hk
  have hk0 : k = 0 := by omega
  subst hk0
  obtain ⟨hp, -⟩ := findIdxOpt_found _ _ _ hm
  rw [getD_drop, Nat.add_zero] at hp
  simp only [pyIndexMatch, Bool.or_eq_true, Bool.and_eq_true,
    Option.isNone_iff_eq_none] at hp
  rcases hp with ⟨h1, h2⟩ | hcc
  · exact hgood ⟨h1 ▸ getD_mem_of_lt so i hi, h2 ▸ getD_mem_of_lt sn j hj⟩
  · rw [cellEq_symm, he] at hcc
    cases hcc

/-- Fuel adequacy: when the two key sequences do not both contain a
missing (NaN) key, every branch of the loop strictly advances a cursor,
so fuel `(|so| - i) + (|sn| - j) + 1` is enough for the loop to finish. -/
theorem decisionsF_isSome (so sn : List Cell)
    (hgood : ¬((none : Cell) ∈ so ∧ (none : Cell) ∈ sn)) :
    ∀ (F i j : Nat), so.length - i + (sn.length - j) + 1 ≤ F →
      (alignDecisionsF F so sn i j).isSome = true := by
  intro F
  induction F with
  | zero => intro i j hF; omega
  | succ F ih =>
      intro i j hF
      simp only [alignDecisionsF]
      by_cases hcond : i < so.length ∨ j < sn.length
      · rw [if_pos hcond]
        by_cases hi : i ≥ so.length
        · have hj : j < sn.length := by
            rcases hcond with hc | hc
            · omega
            · exact hc
          rw [if_pos hi]
          have hs := ih i (j + 1) (by omega)
          cases hv : alignDecisionsF F so sn i (j + 1) with
          | none => rw [hv] at hs; simp at hs
          | some ds => simp [hv]
        · rw [if_neg hi]
          have hi' : i < so.length := by omega
          by_cases hj : j ≥ sn.length
          · rw [if_pos hj]
            have hs := ih (i + 1) j (by omega)
            cases hv : alignDecisionsF F so sn (i + 1) j with
            | none => rw [hv] at hs; simp at hs
            | some ds => simp [hv]
          · rw [if_neg hj]
            have hj' : j < sn.length := by omega
            cases he : cellEq (so.getD i none) (sn.getD j none) with
            | true =>
                rw [if_pos rfl]
                have hs := ih (i + 1) (j + 1) (by omega)
                cases hv : alignDecisionsF F so sn (i + 1) (j + 1) with
                | none => rw [hv] at hs; simp at hs
                | some ds => simp [hv]
            | false =>
                simp only [Bool.false_eq_true, if_false]
                cases hm : findIdxOpt (fun c => pyIndexMatch (so.getD i none) c) (sn.drop j) with
                | some k =>
                    have hk1 : 1 ≤ k := found_pos so sn i j k hgood hi' hj' he hm
                    have hk2 : k < sn.length - j := by
                      have := findIdxOpt_lt_length _ _ _ hm
                      simpa using this
                    have hs := ih i (j + k) (by omega)
                    cases hv : alignDecisionsF F so sn i (j + k) with
                    | none => rw [hv] at hs; simp at hs
                    | some ds => simp [hv]
                | none =>
                    have hs := ih (i + 1) j (by omega)
                    cases hv : alignDecisionsF F so sn (i + 1) j with
                    | none => rw [hv] at hs; simp at hs
                    | some ds => simp [hv]
      · rw [if_neg hcond]
        rfl

/-! ### Relating `align_columns` to its decision sequence -/

/-- The diff tag written for a decision. -/
def diffOf : Decision → String
  | .unchanged _ _ => ""
  | .removed _ => "REMOVED"
  | .new _ => "NEW"

/-- The cell normalisation applied by the path `align_columns` takes:
the general two-sided path applies `astype(str).replace("nan", "")`,
the special one-sided paths do not. -/
def applyPath (prev sub : Table) (pFV sFV : String) (r : List Cell) : List Cell :=
  if tableEmpty (renameSegmentname prev pFV) || tableEmpty (renameSegmentname sub sFV) then r
  else r.map finalizeCell

theorem idxOf?_isSome_of_mem (a : String) (l : List String) (h : a ∈ l) :
    (idxOf? a l).isSome = true := by
  induction l with
  | nil => cases h
  | cons b rest ih =>
      by_cases hb : b = a
      · simp [idxOf?, hb]
      · have h' : a ∈ rest := by
          rcases List.mem_cons.mp h with rfl | hx
          · exact absurd rfl hb
          · exact hx
        simp only [idxOf?, if_neg hb]
        cases hv : idxOf? a rest with
        | none => rw [hv] at ih; exact absurd (ih h') (by simp)
        | some k => simp

theorem rename_rows (t : Table) (fv : String) :
    (renameSegmentname t fv).rows = t.rows := rfl

theorem tableEmpty_rename (t : Table) (fv : String) (h : "Segmentname" ∈ t.cols) :
    tableEmpty (renameSegmentname t fv) = t.rows.isEmpty := by
  unfold tableEmpty renameSegmentname
  have hne : t.cols ≠ [] := List.ne_nil_of_mem h
  cases hc : t.cols with
  | nil => exact absurd hc hne
  | cons c rest => simp

theorem segments_length (t : Table) (fv : String) (hseg : "Segmentname" ∈ t.cols)
    (hsp : ("Segmentname_" ++ fv) ∉ t.cols) :
    (columnToList (renameSegmentname t fv) ("Segmentname_" ++ fv)).length = t.rows.length := by
  unfold columnToList
  have hr : idxOf? ("Segmentname_" ++ fv) (renameSegmentname t fv).cols
      = idxOf? "Segmentname" t.cols := idxOf?_map_rename_seg t.cols _ hsp
  rw [hr]
  cases hv : idxOf? "Segmentname" t.cols with
  | none =>
      have := idxOf?_isSome_of_mem _ _ hseg
      rw [hv] at this
      cases this
  | some k => simp [rename_rows]

theorem columnToList_getD (t : Table) (col : String) (i : Nat) (hi : i < t.rows.length) :
    (columnToList t col).getD i none = getCell t i col := by
  unfold columnToList getCell
  cases h : idxOf? col t.cols with
  | none => simp [List.getD]
  | some k =>
      have hg : t.rows[i]? = some t.rows[i] := List.getElem?_eq_getElem hi
      rw [List.getD_eq_getElem?_getD, List.getElem?_map, hg,
        List.getD_eq_getElem?_getD, hg]
      rfl

/-- The output of `align_columns` is exactly the rendering of its
decision sequence: the fixed merged header, and one materialised row per
decision, in order.  In particular the branch taken (both-empty,
one-side-empty, or the general loop) is mirrored by `decisionsOf`. -/
theorem align_columns_eq (prev sub : Table) (pFV sFV : String) :
    align_columns prev sub pFV sFV
      = (decisionsOf prev sub pFV sFV).map
          (fun ds => { cols := columnOrder prev sub pFV sFV
                       rows := ds.map (mergedRowOf prev sub pFV sFV) }) := by
  unfold align_columns decisionsOf
  cases h1 : tableEmpty (renameSegmentname prev pFV) with
  | true =>
      cases h2 : tableEmpty (renameSegmentname sub sFV) with
      | true => simp [h1, h2]
      | false => simp [h1, h2, mergedRowOf, renderDict, List.map_map]
  | false =>
      cases h2 : tableEmpty (renameSegmentname sub sFV) with
      | true => simp [h1, h2, mergedRowOf, renderDict, List.map_map]
      | false =>
          simp only [h1, h2, Bool.false_eq_true, false_and, and_false, if_false]
          rw [alignLoopF_eq]
          cases alignDecisionsF _ (columnToList (renameSegmentname prev pFV) ("Segmentname_" ++ pFV))
            (columnToList (renameSegmentname sub sFV) ("Segmentname_" ++ sFV)) 0 0 with
          | none => rfl
          | some ds => simp [mergedRowOf, renderDict, h1, h2, List.map_map]

theorem align_columns_some (prev sub : Table) (pFV sFV : String) (M : Table)
    (h : align_columns prev sub pFV sFV = some M) :
    ∃ ds, decisionsOf prev sub pFV sFV = some ds ∧
      M.cols = columnOrder prev sub pFV sFV ∧
      M.rows = ds.map (mergedRowOf prev sub pFV sFV) := by
  rw [align_columns_eq] at h
  cases hd : decisionsOf prev sub pFV sFV with
  | none => rw [hd] at h; cases h
  | some ds =>
      rw [hd] at h
      injection h with h
      exact ⟨ds, rfl, by rw [← h], by rw [← h]⟩

/-- Closed form of one merged output row, per decision. -/
theorem mergedRowOf_eq (prev sub : Table) (pFV sFV : String)
    (h : goodInput prev sub pFV sFV) (d : Decision) :
    mergedRowOf prev sub pFV sFV d
      = applyPath prev sub pFV sFV
          (keyVal (renameSegmentname prev pFV) ("Segmentname_" ++ pFV) (prevIdxOf d)
            :: ((dataColumns prev).map
                  (fun c => dataVal (renameSegmentname prev pFV) (prevIdxOf d) c)
              ++ some (diffOf d)
                :: keyVal (renameSegmentname sub sFV) ("Segmentname_" ++ sFV) (subIdxOf d)
                  :: (dataColumns sub).map
                    (fun c => dataVal (renameSegmentname sub sFV) (subIdxOf d) c))) := by
  cases d with
  | unchanged i j =>
      show applyPath prev sub pFV sFV (reindex (mkRow _ _ (some i) (some j) "" pFV sFV) _) = _
      rw [mkRow_reindex prev sub pFV sFV h (some i) (some j) ""]
      rfl
  | removed i =>
      show applyPath prev sub pFV sFV (reindex (mkRow _ _ (some i) none "REMOVED" pFV sFV) _) = _
      rw [mkRow_reindex prev sub pFV sFV h (some i) none "REMOVED"]
      rfl
  | new j =>
      show applyPath prev sub pFV sFV (reindex (mkRow _ _ none (some j) "NEW" pFV sFV) _) = _
      rw [mkRow_reindex prev sub pFV sFV h none (some j) "NEW"]
      rfl

/-! ### Positional access inside one merged row -/

theorem getD_append_lt (A l : List Cell) (t : Nat) (ht : t < A.length) :
    (A ++ l).getD t none = A.getD t none := by
  induction A generalizing t with
  | nil => simp at ht
  | cons a A ih =>
      cases t with
      | zero => rfl
      | succ t => simpa using ih t (by simpa using ht)

theorem getD_append_len (A l : List Cell) (k : Nat) :
    (A ++ l).getD (A.length + k) none = l.getD k none := by
  induction A with
  | nil => simp
  | cons a A ih => simpa [Nat.succ_add] using ih

theorem drop_append_len (A l : List Cell) (k : Nat) :
    (A ++ l).drop (A.length + k) = l.drop k := by
  induction A with
  | nil => simp
  | cons a A ih => simp [Nat.succ_add, ih]

theorem getD_map_lt (l : List Cell) (f : Cell → Cell) (i : Nat) (hi : i < l.length) :
    (l.map f).getD i none = f (l.getD i none) := by
  induction l generalizing i with
  | nil => simp at hi
  | cons a l ih =>
      cases i with
      | zero => rfl
      | succ i => simpa using ih i (by simpa using hi)

theorem mergedRowOf_length (prev sub : Table) (pFV sFV : String) (d : Decision) :
    (mergedRowOf prev sub pFV sFV d).length = (columnOrder prev sub pFV sFV).length := by
  simp only [mergedRowOf, reindex]
  split_ifs <;> simp

/-- The diff cell of a materialised row sits right after the
previous-side columns and carries the decision's tag (the diff tags are
never the string `"nan"`, so the general path's normalisation keeps
them). -/
theorem mergedRowOf_diff_cell (prev sub : Table) (pFV sFV : String)
    (h : goodInput prev sub pFV sFV) (d : Decision) :
    (mergedRowOf prev sub pFV sFV d).getD (1 + (dataColumns prev).length) none
      = some (diffOf d) := by
  rw [mergedRowOf_eq prev sub pFV sFV h d]
  unfold applyPath
  have hlen : ((dataColumns prev).map
      (fun c => dataVal (renameSegmentname prev pFV) (prevIdxOf d) c)).length
      = (dataColumns prev).length := by simp
  split_ifs with hemp
  · rw [Nat.add_comm, List.getD_cons_succ, ← hlen, ← Nat.add_zero ((List.map _ _).length),
      getD_append_len]
    rfl
  · rw [getD_map_lt _ _ _ (by simp; omega)]
    rw [Nat.add_comm, List.getD_cons_succ, ← hlen, ← Nat.add_zero ((List.map _ _).length),
      getD_append_len]
    cases d <;> rfl

/-! ### Claim C9: fixed column layout -/

/-- C9: every merged table `align_columns` returns carries the fixed
header: previous-side key, previous-side data columns in original order,
`diff`, subsequent-side key, subsequent-side data columns in original
order; and every row has exactly one cell per header column, so the
layout is identical across all rows. -/
theorem spec_c9_column_layout (prev sub : Table) (pFV sFV : String) (M : Table)
    (h : align_columns prev sub pFV sFV = some M) :
    M.cols = ["Segmentname_" ++ pFV]
        ++ (dataColumns prev).map (fun c => c ++ "_" ++ pFV)
        ++ ["diff"]
        ++ ["Segmentname_" ++ sFV]
        ++ (dataColumns sub).map (fun c => c ++ "_" ++ sFV)
      ∧ ∀ r ∈ M.rows, r.length = M.cols.length := by
  obtain ⟨ds, hds, hcols, hrows⟩ := align_columns_some prev sub pFV sFV M h
  refine ⟨by rw [hcols]; rfl, ?_⟩
  intro r hr
  rw [hrows] at hr
  obtain ⟨d, hd, rfl⟩ := List.mem_map.mp hr
  rw [hcols]
  exact mergedRowOf_length prev sub pFV sFV d

/-- C9 witness: the layout theorem applied to a concrete pair. -/
theorem spec_c9_column_layout_witness :
    (Table.mk ["Segmentname_p", "diff", "Segmentname_s"] [[some "A", some "", some "A"]]).cols
        = ["Segmentname_" ++ "p"] ++ [] ++ ["diff"] ++ ["Segmentname_" ++ "s"] ++ []
      ∧ ∀ r ∈ (Table.mk ["Segmentname_p", "diff", "Segmentname_s"]
          [[some "A", some "", some "A"]]).rows,
        r.length = (Table.mk ["Segmentname_p", "diff", "Segmentname_s"]
          [[some "A", some "", some "A"]]).cols.length :=
  spec_c9_column_layout ⟨["Segmentname"], [[some "A"]]⟩ ⟨["Segmentname"], [[some "A"]]⟩
    "p" "s" _ rfl

/-! ### Claim C5: the loop does not terminate on all inputs -/

/-- C5 (refuting the termination guarantee): with a missing (NaN)
`Segmentname` cell in both tables, the loop reaches a state where the
`==` test fails (`nan == nan` is false) yet `list.index` finds the NaN
at offset 0 through Python's identity shortcut, so no cursor advances:
no amount of fuel completes the loop, and `align_columns` (modelling)
returns `none` — the Python loop runs forever. -/
theorem spec_c5_nontermination :
    (∀ F : Nat, alignDecisionsF F [(none : Cell)] [(none : Cell)] 0 0 = none)
      ∧ align_columns ⟨["Segmentname"], [[none]]⟩ ⟨["Segmentname"], [[none]]⟩ "p" "s" = none := by
  constructor
  · intro F
    induction F with
    | zero => rfl
    | succ F ih =>
        simp only [alignDecisionsF]
        rw [if_pos (by simp)]
        rw [if_neg (by simp)]
        rw [if_neg (by simp)]
        rw [if_neg (by simp [cellEq])]
        have hfind : findIdxOpt
            (fun c => pyIndexMatch (List.getD [(none : Cell)] 0 none) c)
            (List.drop 0 [(none : Cell)]) = some 0 := by rfl
        simp only [hfind, Nat.add_zero, ih]
        rfl
  · rfl

/-! ### Cells of one merged row, by position -/

theorem get?_append_lt {α : Type} (A l : List α) (t : Nat) (ht : t < A.length) :
    (A ++ l).get? t = A.get? t := by
  induction A generalizing t with
  | nil => simp at ht
  | cons a A ih =>
      cases t with
      | zero => rfl
      | succ t => simpa using ih t (by simpa using ht)

theorem get?_append_len {α : Type} (A l : List α) (k : Nat) :
    (A ++ l).get? (A.length + k) = l.get? k := by
  induction A with
  | nil => simp
  | cons a A ih => simpa [Nat.succ_add] using ih

theorem getD_of_get? {α : Type} (l : List α) (f : α → Cell) (k : Nat) (c : α)
    (h : l.get? k = some c) : (l.map f).getD k none = f c := by
  induction l generalizing k with
  | nil => simp at h
  | cons a l ih =>
      cases k with
      | zero => injection h with h; rw [h]; rfl
      | succ k => simpa using ih k (by simpa using h)

/-- The normalisation one cell undergoes on the path `align_columns`
takes: identity on the one-sided paths, `astype(str).replace("nan","")`
on the general path. -/
def applyCell (prev sub : Table) (pFV sFV : String) (c : Cell) : Cell :=
  if tableEmpty (renameSegmentname prev pFV) || tableEmpty (renameSegmentname sub sFV) then c
  else finalizeCell c

theorem mergedRowOf_cell_keyPrev (prev sub : Table) (pFV sFV : String)
    (h : goodInput prev sub pFV sFV) (d : Decision) :
    (mergedRowOf prev sub pFV sFV d).getD 0 none
      = applyCell prev sub pFV sFV
          (keyVal (renameSegmentname prev pFV) ("Segmentname_" ++ pFV) (prevIdxOf d)) := by
  rw [mergedRowOf_eq prev sub pFV sFV h d]
  unfold applyPath applyCell
  split_ifs with hemp
  · rfl
  · rw [getD_map_lt _ _ _ (by simp)]
    rfl

theorem mergedRowOf_cell_dataPrev (prev sub : Table) (pFV sFV : String)
    (h : goodInput prev sub pFV sFV) (d : Decision) (k : Nat) (c : String)
    (hk : (dataColumns prev).get? k = some c) :
    (mergedRowOf prev sub pFV sFV d).getD (1 + k) none
      = applyCell prev sub pFV sFV
          (dataVal (renameSegmentname prev pFV) (prevIdxOf d) c) := by
  have hklen : k < (dataColumns prev).length := by
    have := List.get?_mem hk
    by_contra hc
    rw [List.get?_eq_none.mpr (by omega)] at hk
    cases hk
  rw [mergedRowOf_eq prev sub pFV sFV h d]
  unfold applyPath applyCell
  have hmain : ∀ oi, (keyVal (renameSegmentname prev pFV) ("Segmentname_" ++ pFV) oi
      :: ((dataColumns prev).map (fun c => dataVal (renameSegmentname prev pFV) oi c)
        ++ some (diffOf d)
          :: keyVal (renameSegmentname sub sFV) ("Segmentname_" ++ sFV) (subIdxOf d)
            :: (dataColumns sub).map
              (fun c => dataVal (renameSegmentname sub sFV) (subIdxOf d) c))).getD (1 + k) none
      = dataVal (renameSegmentname prev pFV) oi c := by
    intro oi
    rw [Nat.add_comm, List.getD_cons_succ,
      getD_append_lt _ _ _ (by simpa using hklen),
      getD_of_get? _ _ _ _ hk]
  split_ifs with hemp
  · exact hmain _
  · rw [getD_map_lt _ _ _ (by simp; omega), hmain _]

theorem mergedRowOf_cell_keySub (prev sub : Table) (pFV sFV : String)
    (h : goodInput prev sub pFV sFV) (d : Decision) :
    (mergedRowOf prev sub pFV sFV d).getD (2 + (dataColumns prev).length) none
      = applyCell prev sub pFV sFV
          (keyVal (renameSegmentname sub sFV) ("Segmentname_" ++ sFV) (subIdxOf d)) := by
  rw [mergedRowOf_eq prev sub pFV sFV h d]
  unfold applyPath applyCell
  have hmain : ∀ oi, (keyVal (renameSegmentname prev pFV) ("Segmentname_" ++ pFV) oi
      :: ((dataColumns prev).map (fun c => dataVal (renameSegmentname prev pFV) oi c)
        ++ some (diffOf d)
          :: keyVal (renameSegmentname sub sFV) ("Segmentname_" ++ sFV) (subIdxOf d)
            :: (dataColumns sub).map
              (fun c => dataVal (renameSegmentname sub sFV) (subIdxOf d) c))).getD
        (2 + (dataColumns prev).length) none
      = keyVal (renameSegmentname sub sFV) ("Segmentname_" ++ sFV) (subIdxOf d) := by
    intro oi
    rw [Nat.add_comm, List.getD_cons_succ,
      show (dataColumns prev).length + 1
        = ((dataColumns prev).map (fun c => dataVal (renameSegmentname prev pFV) oi c)).length + 1
        by simp,
      getD_append_len]
    rfl
  split_ifs with hemp
  · exact hmain _
  · rw [getD_map_lt _ _ _ (by simp; omega), hmain _]

theorem mergedRowOf_cell_dataSub (prev sub : Table) (pFV sFV : String)
    (h : goodInput prev sub pFV sFV) (d : Decision) (k : Nat) (c : String)
    (hk : (dataColumns sub).get? k = some c) :
    (mergedRowOf prev sub pFV sFV d).getD (3 + (dataColumns prev).length + k) none
      = applyCell prev sub pFV sFV
          (dataVal (renameSegmentname sub sFV) (subIdxOf d) c) := by
  have hklen : k < (dataColumns sub).length := by
    have := List.get?_mem hk
    by_contra hc
    rw [List.get?_eq_none.mpr (by omega)] at hk
    cases hk
  rw [mergedRowOf_eq prev sub pFV sFV h d]
  unfold applyPath applyCell
  have hmain : ∀ oi, (keyVal (renameSegmentname prev pFV) ("Segmentname_" ++ pFV) oi
      :: ((dataColumns prev).map (fun c => dataVal (renameSegmentname prev pFV) oi c)
        ++ some (diffOf d)
          :: keyVal (renameSegmentname sub sFV) ("Segmentname_" ++ sFV) (subIdxOf d)
            :: (dataColumns sub).map
              (fun c => dataVal (renameSegmentname sub sFV) (subIdxOf d) c))).getD
        (3 + (dataColumns prev).length + k) none
      = dataVal (renameSegmentname sub sFV) (subIdxOf d) c := by
    intro oi
    rw [show 3 + (dataColumns prev).length + k = (2 + (dataColumns prev).length + k) + 1 by omega,
      List.getD_cons_succ,
      show 2 + (dataColumns prev).length + k
        = ((dataColumns prev).map (fun c => dataVal (renameSegmentname prev pFV) oi c)).length
          + (2 + k) by simp only [List.length_map]; omega,
      getD_append_len]
    rw [show 2 + k = (k + 1) + 1 by omega, List.getD_cons_succ, List.getD_cons_succ,
      getD_of_get? _ _ _ _ hk]
  split_ifs with hemp
  · exact hmain _
  · rw [getD_map_lt _ _ _ (by simp; omega), hmain _]

/-! ### Membership facts for the emitted decisions -/

theorem filterMap_map_removed_prev (l : List Nat) :
    List.filterMap prevIdxOf (l.map Decision.removed) = l := by
  induction l with
  | nil => rfl
  | cons a l ih => simp [List.filterMap_cons, prevIdxOf, ih]

theorem filterMap_map_removed_sub (l : List Nat) :
    List.filterMap subIdxOf (l.map Decision.removed) = [] := by
  induction l with
  | nil => rfl
  | cons a l ih => simp [List.filterMap_cons, subIdxOf, ih]

theorem filterMap_map_newlist_prev (l : List Nat) :
    List.filterMap prevIdxOf (l.map Decision.new) = [] := by
  induction l with
  | nil => rfl
  | cons a l ih => simp [List.filterMap_cons, prevIdxOf, ih]

theorem filterMap_map_newlist_sub (l : List Nat) :
    List.filterMap subIdxOf (l.map Decision.new) = l := by
  induction l with
  | nil => rfl
  | cons a l ih => simp [List.filterMap_cons, subIdxOf, ih]

/-- An `unchanged` decision only arises on the general (two-sided) path,
at in-range row indices whose two key cells compare `==`-equal. -/
theorem decisionsOf_unchanged_mem (prev sub : Table) (pFV sFV : String)
    (h : goodInput prev sub pFV sFV) (ds : List Decision)
    (hds : decisionsOf prev sub pFV sFV = some ds)
    (i j : Nat) (hd : Decision.unchanged i j ∈ ds) :
    i < prev.rows.length ∧ j < sub.rows.length
      ∧ tableEmpty (renameSegmentname prev pFV) = false
      ∧ tableEmpty (renameSegmentname sub sFV) = false
      ∧ cellEq (getCell (renameSegmentname prev pFV) i ("Segmentname_" ++ pFV))
          (getCell (renameSegmentname sub sFV) j ("Segmentname_" ++ sFV)) = true := by
  obtain ⟨hSegP, hSegS, hSpP, hSsS, hnd⟩ := h
  simp only [decisionsOf] at hds
  cases h1 : tableEmpty (renameSegmentname prev pFV) with
  | true =>
      rw [h1] at hds
      cases h2 : tableEmpty (renameSegmentname sub sFV) with
      | true =>
          rw [h2] at hds
          simp at hds
          subst hds
          cases hd
      | false =>
          rw [h2] at hds
          simp at hds
          subst hds
          obtain ⟨t, -, ht⟩ := List.mem_map.mp hd
          cases ht
  | false =>
      rw [h1] at hds
      cases h2 : tableEmpty (renameSegmentname sub sFV) with
      | true =>
          rw [h2] at hds
          simp at hds
          subst hds
          obtain ⟨t, -, ht⟩ := List.mem_map.mp hd
          cases ht
      | false =>
          rw [h2] at hds
          simp only [Bool.false_eq_true, false_and, and_false, if_false] at hds
          obtain ⟨hi, hj, hcell⟩ := decisionsF_unchanged_mem _ _ _ 0 0 ds hds i j hd
          have hlenP := segments_length prev pFV hSegP hSpP
          have hlenS := segments_length sub sFV hSegS hSsS
          have hi' : i < prev.rows.length := by rw [← hlenP]; exact hi
          have hj' : j < sub.rows.length := by rw [← hlenS]; exact hj
          refine ⟨hi', hj', rfl, rfl, ?_⟩
          rw [← columnToList_getD (renameSegmentname prev pFV) _ i (by rw [rename_rows]; exact hi'),
            ← columnToList_getD (renameSegmentname sub sFV) _ j (by rw [rename_rows]; exact hj')]
          exact hcell

/-! ### Claim C3: the three special cases -/

/-- C3: if both inputs are empty the merged table has zero rows but the
full declared header; if only the subsequent table is empty every
previous row is decided `REMOVED` in original order (each merged row
carrying the `REMOVED` tag); if only the previous table is empty every
subsequent row is decided `NEW` in original order. -/
theorem spec_c3_special_cases (prev sub : Table) (pFV sFV : String)
    (h : goodInput prev sub pFV sFV) :
    (prev.rows = [] → sub.rows = [] →
      align_columns prev sub pFV sFV
        = some { cols := columnOrder prev sub pFV sFV, rows := [] }) ∧
    (sub.rows = [] → prev.rows ≠ [] →
      decisionsOf prev sub pFV sFV
          = some ((List.range prev.rows.length).map Decision.removed) ∧
      align_columns prev sub pFV sFV
          = some { cols := columnOrder prev sub pFV sFV
                   rows := (List.range prev.rows.length).map
                     (fun i => mergedRowOf prev sub pFV sFV (Decision.removed i)) } ∧
      ∀ i, i < prev.rows.length →
        (mergedRowOf prev sub pFV sFV (Decision.removed i)).getD
          (1 + (dataColumns prev).length) none = some "REMOVED") ∧
    (prev.rows = [] → sub.rows ≠ [] →
      decisionsOf prev sub pFV sFV
          = some ((List.range sub.rows.length).map Decision.new) ∧
      align_columns prev sub pFV sFV
          = some { cols := columnOrder prev sub pFV sFV
                   rows := (List.range sub.rows.length).map
                     (fun j => mergedRowOf prev sub pFV sFV (Decision.new j)) } ∧
      ∀ j, j < sub.rows.length →
        (mergedRowOf prev sub pFV sFV (Decision.new j)).getD
          (1 + (dataColumns prev).length) none = some "NEW") := by
  have e1 := tableEmpty_rename prev pFV h.1
  have e2 := tableEmpty_rename sub sFV h.2.1
  refine ⟨?_, ?_, ?_⟩
  · intro hp hs
    have h1 : tableEmpty (renameSegmentname prev pFV) = true := by rw [e1, hp]; rfl
    have h2 : tableEmpty (renameSegmentname sub sFV) = true := by rw [e2, hs]; rfl
    have hds : decisionsOf prev sub pFV sFV = some [] := by
      simp only [decisionsOf]
      rw [h1, h2]
      simp
    rw [align_columns_eq, hds]
    rfl
  · intro hs hp
    have h2 : tableEmpty (renameSegmentname sub sFV) = true := by rw [e2, hs]; rfl
    have h1 : tableEmpty (renameSegmentname prev pFV) = false := by
      rw [e1]
      exact Bool.eq_false_iff.mpr (fun hb => hp (List.isEmpty_iff.mp hb))
    have hds : decisionsOf prev sub pFV sFV
        = some ((List.range prev.rows.length).map Decision.removed) := by
      simp only [decisionsOf]
      rw [h1, h2]
      simp [rename_rows]
    refine ⟨hds, ?_, ?_⟩
    · rw [align_columns_eq, hds]
      simp [List.map_map]
    · intro i hi
      have := mergedRowOf_diff_cell prev sub pFV sFV h (Decision.removed i)
      simpa [diffOf] using this
  · intro hp hs
    have h1 : tableEmpty (renameSegmentname prev pFV) = true := by rw [e1, hp]; rfl
    have h2 : tableEmpty (renameSegmentname sub sFV) = false := by
      rw [e2]
      exact Bool.eq_false_iff.mpr (fun hb => hs (List.isEmpty_iff.mp hb))
    have hds : decisionsOf prev sub pFV sFV
        = some ((List.range sub.rows.length).map Decision.new) := by
      simp only [decisionsOf]
      rw [h1, h2]
      simp [rename_rows]
    refine ⟨hds, ?_, ?_⟩
    · rw [align_columns_eq, hds]
      simp [List.map_map]
    · intro j hj
      have := mergedRowOf_diff_cell prev sub pFV sFV h (Decision.new j)
      simpa [diffOf] using this

/-- C3 witness: a one-row previous table against an empty subsequent
table with the same header yields a single REMOVED decision and a single
merged row with an empty subsequent side. -/
theorem spec_c3_special_cases_witness :
    decisionsOf ⟨["Segmentname"], [[some "A"]]⟩
        ⟨["Segmentname"], ([] : List (List Cell))⟩ "p" "s"
      = some [Decision.removed 0]
    ∧ align_columns ⟨["Segmentname"], [[some "A"]]⟩
        ⟨["Segmentname"], ([] : List (List Cell))⟩ "p" "s"
      = some ⟨["Segmentname_p", "diff", "Segmentname_s"],
          [[some "A", some "REMOVED", some ""]]⟩ := by
  have h := (spec_c3_special_cases ⟨["Segmentname"], [[some "A"]]⟩
    ⟨["Segmentname"], ([] : List (List Cell))⟩ "p" "s" (by decide)).2.1 rfl (by decide)
  exact ⟨h.1, h.2.1⟩

/-! ### Claim C2: exactly-once coverage (amended) -/

/-- C2 (amended): whenever the engine terminates, the produced merged
table renders each decision to exactly one row, the previous row indices
consumed are exactly `0, …, |prev| - 1` in order and the subsequent
indices exactly `0, …, |sub| - 1` in order — every row of both tables is
covered exactly once; the engine is guaranteed to terminate when the two
key sequences do not both contain a missing (NaN) key. -/
theorem spec_c2_coverage (prev sub : Table) (pFV sFV : String)
    (h : goodInput prev sub pFV sFV) :
    (∀ ds, decisionsOf prev sub pFV sFV = some ds →
      align_columns prev sub pFV sFV
          = some { cols := columnOrder prev sub pFV sFV
                   rows := ds.map (mergedRowOf prev sub pFV sFV) }
        ∧ prevIndices ds = List.range prev.rows.length
        ∧ subIndices ds = List.range sub.rows.length) ∧
    (¬((none : Cell) ∈ columnToList (renameSegmentname prev pFV) ("Segmentname_" ++ pFV)
        ∧ (none : Cell) ∈ columnToList (renameSegmentname sub sFV) ("Segmentname_" ++ sFV)) →
      (decisionsOf prev sub pFV sFV).isSome = true) := by
  have e1 := tableEmpty_rename prev pFV h.1
  have e2 := tableEmpty_rename sub sFV h.2.1
  have hlenP := segments_length prev pFV h.1 h.2.2.1
  have hlenS := segments_length sub sFV h.2.1 h.2.2.2.1
  constructor
  · intro ds hds
    refine ⟨by rw [align_columns_eq, hds]; rfl, ?_⟩
    simp only [decisionsOf] at hds
    cases h1 : tableEmpty (renameSegmentname prev pFV) with
    | true =>
        have hp : prev.rows = [] := List.isEmpty_iff.mp (by rw [← e1]; exact h1)
        rw [h1] at hds
        cases h2 : tableEmpty (renameSegmentname sub sFV) with
        | true =>
            have hs : sub.rows = [] := List.isEmpty_iff.mp (by rw [← e2]; exact h2)
            rw [h2] at hds
            simp at hds
            subst hds
            simp [prevIndices, subIndices, hp, hs]
        | false =>
            rw [h2] at hds
            simp at hds
            subst hds
            rw [rename_rows]
            constructor
            · simp only [prevIndices]
              rw [filterMap_map_newlist_prev, hp]
              rfl
            · simp only [subIndices]
              rw [filterMap_map_newlist_sub]
    | false =>
        rw [h1] at hds
        cases h2 : tableEmpty (renameSegmentname sub sFV) with
        | true =>
            have hs : sub.rows = [] := List.isEmpty_iff.mp (by rw [← e2]; exact h2)
            rw [h2] at hds
            simp at hds
            subst hds
            rw [rename_rows]
            constructor
            · simp only [prevIndices]
              rw [filterMap_map_removed_prev]
            · simp only [subIndices]
              rw [filterMap_map_removed_sub, hs]
              rfl
        | false =>
            rw [h2] at hds
            simp only [Bool.false_eq_true, false_and, and_false, if_false] at hds
            obtain ⟨hc1, hc2⟩ := decisionsF_cov _ _ _ 0 0 ds hds
            rw [hlenP] at hc1
            rw [hlenS] at hc2
            simp only [Nat.sub_zero] at hc1 hc2
            rw [← List.range_eq_range'] at hc1 hc2
            exact ⟨hc1, hc2⟩
  · intro hkeys
    simp only [decisionsOf]
    cases h1 : tableEmpty (renameSegmentname prev pFV) with
    | true =>
        cases h2 : tableEmpty (renameSegmentname sub sFV) with
        | true => simp
        | false => simp
    | false =>
        cases h2 : tableEmpty (renameSegmentname sub sFV) with
        | true => simp
        | false =>
            simp only [Bool.false_eq_true, false_and, and_false, if_false]
            exact decisionsF_isSome _ _ hkeys _ 0 0 (by omega)

/-- C2 counterexample (refuting the unrestricted claim): with a missing
`Segmentname` key in both tables the engine produces no decision
sequence at all — the loop never terminates — so the rows are not
covered. -/
theorem spec_c2_coverage_counterexample :
    decisionsOf ⟨["Segmentname"], [[none]]⟩ ⟨["Segmentname"], [[none]]⟩ "p" "s" = none
      ∧ align_columns ⟨["Segmentname"], [[none]]⟩ ⟨["Segmentname"], [[none]]⟩ "p" "s" = none :=
  ⟨rfl, rfl⟩

/-- C2 witness: the coverage theorem applied to a concrete pair. -/
theorem spec_c2_coverage_witness :
    align_columns ⟨["Segmentname"], [[some "A"]]⟩ ⟨["Segmentname"], [[some "A"]]⟩ "p" "s"
        = some ⟨["Segmentname_p", "diff", "Segmentname_s"], [[some "A", some "", some "A"]]⟩
      ∧ prevIndices [Decision.unchanged 0 0] = List.range 1
      ∧ subIndices [Decision.unchanged 0 0] = List.range 1 :=
  (spec_c2_coverage ⟨["Segmentname"], [[some "A"]]⟩ ⟨["Segmentname"], [[some "A"]]⟩
    "p" "s" (by decide)).1 [Decision.unchanged 0 0] rfl

/-! ### Claim C4: side-emptiness invariants of merged rows -/

theorem mergedRowOf_removed_subSide (prev sub : Table) (pFV sFV : String)
    (h : goodInput prev sub pFV sFV) (i : Nat) :
    (mergedRowOf prev sub pFV sFV (Decision.removed i)).drop (2 + (dataColumns prev).length)
      = List.replicate (1 + (dataColumns sub).length) (some "") := by
  rw [mergedRowOf_eq prev sub pFV sFV h (Decision.removed i)]
  unfold applyPath
  simp only [prevIdxOf, subIdxOf, diffOf]
  have hB : (dataColumns sub).map
      (fun c => dataVal (renameSegmentname sub sFV) none c)
      = List.replicate (dataColumns sub).length (some "") := by
    rw [List.map_congr_left (fun c _ => (rfl : dataVal (renameSegmentname sub sFV) none c = some ""))]
    exact List.map_const' _ _
  have hdrop : (keyVal (renameSegmentname prev pFV) ("Segmentname_" ++ pFV) (some i)
      :: ((dataColumns prev).map (fun c => dataVal (renameSegmentname prev pFV) (some i) c)
        ++ some "REMOVED"
          :: keyVal (renameSegmentname sub sFV) ("Segmentname_" ++ sFV) none
            :: (dataColumns sub).map
              (fun c => dataVal (renameSegmentname sub sFV) none c))).drop
        (2 + (dataColumns prev).length)
      = some "" :: (dataColumns sub).map (fun c => dataVal (renameSegmentname sub sFV) none c) := by
    rw [show 2 + (dataColumns prev).length = (1 + (dataColumns prev).length) + 1 by omega,
      List.drop_succ_cons,
      show 1 + (dataColumns prev).length
        = ((dataColumns prev).map
            (fun c => dataVal (renameSegmentname prev pFV) (some i) c)).length + 1
        by simp only [List.length_map]; omega,
      drop_append_len]
    rfl
  split_ifs with hemp
  · rw [hdrop, hB, show 1 + (dataColumns sub).length = (dataColumns sub).length + 1 by omega,
      List.replicate_succ]
  · rw [← List.map_drop, hdrop, hB]
    rw [show 1 + (dataColumns sub).length = (dataColumns sub).length + 1 by omega,
      List.replicate_succ, List.map_cons, List.map_replicate]
    rfl

theorem mergedRowOf_new_prevSide (prev sub : Table) (pFV sFV : String)
    (h : goodInput prev sub pFV sFV) (j : Nat) :
    (mergedRowOf prev sub pFV sFV (Decision.new j)).take (1 + (dataColumns prev).length)
      = List.replicate (1 + (dataColumns prev).length) (some "") := by
  rw [mergedRowOf_eq prev sub pFV sFV h (Decision.new j)]
  unfold applyPath
  simp only [prevIdxOf, subIdxOf, diffOf]
  have hA : (dataColumns prev).map
      (fun c => dataVal (renameSegmentname prev pFV) none c)
      = List.replicate (dataColumns prev).length (some "") := by
    rw [List.map_congr_left (fun c _ => (rfl : dataVal (renameSegmentname prev pFV) none c = some ""))]
    exact List.map_const' _ _
  have htake : (keyVal (renameSegmentname prev pFV) ("Segmentname_" ++ pFV) none
      :: ((dataColumns prev).map (fun c => dataVal (renameSegmentname prev pFV) none c)
        ++ some "NEW"
          :: keyVal (renameSegmentname sub sFV) ("Segmentname_" ++ sFV) (some j)
            :: (dataColumns sub).map
              (fun c => dataVal (renameSegmentname sub sFV) (some j) c))).take
        (1 + (dataColumns prev).length)
      = some "" :: (dataColumns prev).map (fun c => dataVal (renameSegmentname prev pFV) none c) := by
    rw [show 1 + (dataColumns prev).length = (dataColumns prev).length + 1 by omega,
      List.take_succ_cons,
      show (dataColumns prev).length
        = ((dataColumns prev).map
            (fun c => dataVal (renameSegmentname prev pFV) none c)).length
        by simp,
      List.take_left]
    rfl
  split_ifs with hemp
  · rw [htake, hA, show 1 + (dataColumns prev).length = (dataColumns prev).length + 1 by omega,
      List.replicate_succ]
  · rw [← List.map_take, htake, hA]
    rw [show 1 + (dataColumns prev).length = (dataColumns prev).length + 1 by omega,
      List.replicate_succ, List.map_cons, List.map_replicate]
    rfl

/-- C4: in every merged row, a `REMOVED` tag comes with an all-empty
subsequent side (subsequent key cell included), a `NEW` tag with an
all-empty previous side (previous key cell included), and an empty
(`UNCHANGED`) tag with both sides populated from a source row of each
table. -/
theorem spec_c4_row_invariant (prev sub : Table) (pFV sFV : String) (M : Table)
    (h : goodInput prev sub pFV sFV)
    (hM : align_columns prev sub pFV sFV = some M) :
    ∀ r ∈ M.rows,
      (r.getD (1 + (dataColumns prev).length) none = some "REMOVED" →
        r.drop (2 + (dataColumns prev).length)
          = List.replicate (1 + (dataColumns sub).length) (some "")) ∧
      (r.getD (1 + (dataColumns prev).length) none = some "NEW" →
        r.take (1 + (dataColumns prev).length)
          = List.replicate (1 + (dataColumns prev).length) (some "")) ∧
      (r.getD (1 + (dataColumns prev).length) none = some "" →
        ∃ i j, i < prev.rows.length ∧ j < sub.rows.length ∧
          r = (keyVal (renameSegmentname prev pFV) ("Segmentname_" ++ pFV) (some i)
            :: ((dataColumns prev).map
                  (fun c => dataVal (renameSegmentname prev pFV) (some i) c)
              ++ some ""
                :: keyVal (renameSegmentname sub sFV) ("Segmentname_" ++ sFV) (some j)
                  :: (dataColumns sub).map
                    (fun c => dataVal (renameSegmentname sub sFV) (some j) c))).map
            finalizeCell) := by
  obtain ⟨ds, hds, hcols, hrows⟩ := align_columns_some prev sub pFV sFV M hM
  intro r hr
  rw [hrows] at hr
  obtain ⟨d, hd, rfl⟩ := List.mem_map.mp hr
  have hdiff := mergedRowOf_diff_cell prev sub pFV sFV h d
  refine ⟨?_, ?_, ?_⟩
  · intro hv
    rw [hdiff] at hv
    injection hv with hv
    cases d with
    | unchanged i j => simp only [diffOf] at hv; exact absurd hv (by decide)
    | new j => simp only [diffOf] at hv; exact absurd hv (by decide)
    | removed i => exact mergedRowOf_removed_subSide prev sub pFV sFV h i
  · intro hv
    rw [hdiff] at hv
    injection hv with hv
    cases d with
    | unchanged i j => simp only [diffOf] at hv; exact absurd hv (by decide)
    | removed i => simp only [diffOf] at hv; exact absurd hv (by decide)
    | new j => exact mergedRowOf_new_prevSide prev sub pFV sFV h j
  · intro hv
    rw [hdiff] at hv
    injection hv with hv
    cases d with
    | removed i => simp only [diffOf] at hv; exact absurd hv (by decide)
    | new j => simp only [diffOf] at hv; exact absurd hv (by decide)
    | unchanged i j =>
        obtain ⟨hi, hj, hemp1, hemp2, -⟩ :=
          decisionsOf_unchanged_mem prev sub pFV sFV h ds hds i j hd
        refine ⟨i, j, hi, hj, ?_⟩
        rw [mergedRowOf_eq prev sub pFV sFV h (Decision.unchanged i j)]
        unfold applyPath
        rw [hemp1, hemp2]
        rfl

/-- C4 witness: the invariant theorem applied to a concrete pair with a
removed and an unchanged row. -/
theorem spec_c4_row_invariant_witness :
    ((([some "A", some "", some "A"] : List Cell).getD 1 none = some "REMOVED" →
        ([some "A", some "", some "A"] : List Cell).drop 2 = List.replicate 1 (some ""))
      ∧ (([some "A", some "", some "A"] : List Cell).getD 1 none = some "NEW" →
        ([some "A", some "", some "A"] : List Cell).take 1 = List.replicate 1 (some ""))
      ∧ (([some "A", some "", some "A"] : List Cell).getD 1 none = some "" →
        ∃ i j, i < 1 ∧ j < 1 ∧
          ([some "A", some "", some "A"] : List Cell)
            = (keyVal (renameSegmentname ⟨["Segmentname"], [[some "A"]]⟩ "p")
                ("Segmentname_" ++ "p") (some i)
              :: (([] : List String).map
                    (fun c => dataVal (renameSegmentname ⟨["Segmentname"], [[some "A"]]⟩ "p") (some i) c)
                ++ some ""
                  :: keyVal (renameSegmentname ⟨["Segmentname"], [[some "A"]]⟩ "s")
                      ("Segmentname_" ++ "s") (some j)
                    :: ([] : List String).map
                      (fun c => dataVal (renameSegmentname ⟨["Segmentname"], [[some "A"]]⟩ "s") (some j) c))).map
              finalizeCell)) :=
  spec_c4_row_invariant ⟨["Segmentname"], [[some "A"]]⟩ ⟨["Segmentname"], [[some "A"]]⟩
    "p" "s" _ (by decide) rfl [some "A", some "", some "A"] (by decide)

/-! ### Claim C10: UNCHANGED is decided by key equality alone -/

/-- C10: a merged row carries the empty diff tag only for an `unchanged`
pairing, whose two key cells are equal (and present); the data cells of
the two sides are never compared — the concrete pair in the second
conjunct has identical keys but different `X` data on the two sides and
still yields an UNCHANGED row carrying both differing values. -/
theorem spec_c10_key_only_pairing :
    (∀ (prev sub : Table) (pFV sFV : String) (M : Table),
      goodInput prev sub pFV sFV →
      align_columns prev sub pFV sFV = some M →
      ∀ r ∈ M.rows, r.getD (1 + (dataColumns prev).length) none = some "" →
        r.getD 0 none = r.getD (2 + (dataColumns prev).length) none
          ∧ ∃ v, r.getD 0 none = some v) ∧
    align_columns ⟨["Segmentname", "X"], [[some "A", some "1"]]⟩
        ⟨["Segmentname", "X"], [[some "A", some "2"]]⟩ "p" "s"
      = some ⟨["Segmentname_p", "X_p", "diff", "Segmentname_s", "X_s"],
          [[some "A", some "1", some "", some "A", some "2"]]⟩ := by
  constructor
  · intro prev sub pFV sFV M h hM r hr hdiffcell
    obtain ⟨ds, hds, hcols, hrows⟩ := align_columns_some prev sub pFV sFV M hM
    rw [hrows] at hr
    obtain ⟨d, hd, rfl⟩ := List.mem_map.mp hr
    have hdiff := mergedRowOf_diff_cell prev sub pFV sFV h d
    rw [hdiff] at hdiffcell
    injection hdiffcell with hv
    cases d with
    | removed i => simp only [diffOf] at hv; exact absurd hv (by decide)
    | new j => simp only [diffOf] at hv; exact absurd hv (by decide)
    | unchanged i j =>
        obtain ⟨hi, hj, hemp1, hemp2, hkeys⟩ :=
          decisionsOf_unchanged_mem prev sub pFV sFV h ds hds i j hd
        obtain ⟨v, hv1, hv2⟩ := (cellEq_true_iff _ _).mp hkeys
        have hc0 := mergedRowOf_cell_keyPrev prev sub pFV sFV h (Decision.unchanged i j)
        have hc2 := mergedRowOf_cell_keySub prev sub pFV sFV h (Decision.unchanged i j)
        rw [hc0, hc2]
        unfold applyCell
        rw [hemp1, hemp2]
        simp only [prevIdxOf, subIdxOf, keyVal, Bool.false_or, Bool.or_self,
          Bool.false_eq_true, if_false]
        rw [hv1, hv2]
        exact ⟨rfl, ⟨_, rfl⟩⟩
  · rfl

/-- C10 witness: the key-equality consequence at a concrete UNCHANGED
row whose data cells differ on the two sides. -/
theorem spec_c10_key_only_pairing_witness :
    ([some "A", some "1", some "", some "A", some "2"] : List Cell).getD 0 none
        = ([some "A", some "1", some "", some "A", some "2"] : List Cell).getD 3 none
      ∧ ∃ v, ([some "A", some "1", some "", some "A", some "2"] : List Cell).getD 0 none
          = some v :=
  (spec_c10_key_only_pairing).1 ⟨["Segmentname", "X"], [[some "A", some "1"]]⟩
    ⟨["Segmentname", "X"], [[some "A", some "2"]]⟩ "p" "s"
    ⟨["Segmentname_p", "X_p", "diff", "Segmentname_s", "X_s"],
      [[some "A", some "1", some "", some "A", some "2"]]⟩
    (by decide) rfl
    [some "A", some "1", some "", some "A", some "2"] (by decide) (by decide)

/-! ### Claim C6: value fidelity of merged cells (amended) -/

theorem getD_eq_of_get? {α : Type} (l : List α) (n : Nat) (dflt a : α)
    (h : l.get? n = some a) : l.getD n dflt = a := by
  induction l generalizing n with
  | nil => simp at h
  | cons x l ih =>
      cases n with
      | zero => simpa using h
      | succ n => simpa using ih n (by simpa using h)

theorem get?_map_helper {α β : Type} (f : α → β) (l : List α) (n : Nat) :
    (l.map f).get? n = (l.get? n).map f := by
  induction l generalizing n with
  | nil => rfl
  | cons x l ih =>
      cases n with
      | zero => rfl
      | succ n => simp [ih n]

theorem columnOrder_shape (prev sub : Table) (pFV sFV : String) :
    columnOrder prev sub pFV sFV
      = ("Segmentname_" ++ pFV)
          :: ((dataColumns prev).map (fun c => c ++ "_" ++ pFV)
            ++ "diff"
              :: ("Segmentname_" ++ sFV)
                :: (dataColumns sub).map (fun c => c ++ "_" ++ sFV)) := by
  simp [columnOrder]

theorem idxOf?_order_keyPrev (prev sub : Table) (pFV sFV : String)
    (hnd : (columnOrder prev sub pFV sFV).Nodup) :
    idxOf? ("Segmentname_" ++ pFV) (columnOrder prev sub pFV sFV) = some 0 :=
  idxOf?_nodup_get? _ hnd 0 _ (by rw [columnOrder_shape]; rfl)

theorem idxOf?_order_dataPrev (prev sub : Table) (pFV sFV : String)
    (hnd : (columnOrder prev sub pFV sFV).Nodup) (k : Nat) (c : String)
    (hk : (dataColumns prev).get? k = some c) :
    idxOf? (c ++ "_" ++ pFV) (columnOrder prev sub pFV sFV) = some (1 + k) := by
  have hklen : k < (dataColumns prev).length := by
    by_contra hc
    rw [List.get?_eq_none.mpr (by omega)] at hk
    cases hk
  refine idxOf?_nodup_get? _ hnd (1 + k) _ ?_
  rw [columnOrder_shape, Nat.add_comm, List.get?_cons_succ,
    get?_append_lt _ _ _ (by simpa using hklen), get?_map_helper, hk]
  rfl

theorem idxOf?_order_keySub (prev sub : Table) (pFV sFV : String)
    (hnd : (columnOrder prev sub pFV sFV).Nodup) :
    idxOf? ("Segmentname_" ++ sFV) (columnOrder prev sub pFV sFV)
      = some (2 + (dataColumns prev).length) := by
  refine idxOf?_nodup_get? _ hnd (2 + (dataColumns prev).length) _ ?_
  rw [columnOrder_shape,
    show 2 + (dataColumns prev).length = (1 + (dataColumns prev).length) + 1 by omega,
    List.get?_cons_succ,
    show 1 + (dataColumns prev).length
      = ((dataColumns prev).map (fun c => c ++ "_" ++ pFV)).length + 1
      by simp only [List.length_map]; omega,
    get?_append_len]
  rfl

theorem idxOf?_order_dataSub (prev sub : Table) (pFV sFV : String)
    (hnd : (columnOrder prev sub pFV sFV).Nodup) (k : Nat) (c : String)
    (hk : (dataColumns sub).get? k = some c) :
    idxOf? (c ++ "_" ++ sFV) (columnOrder prev sub pFV sFV)
      = some (3 + (dataColumns prev).length + k) := by
  refine idxOf?_nodup_get? _ hnd (3 + (dataColumns prev).length + k) _ ?_
  rw [columnOrder_shape,
    show 3 + (dataColumns prev).length + k
      = (2 + (dataColumns prev).length + k) + 1 by omega,
    List.get?_cons_succ,
    show 2 + (dataColumns prev).length + k
      = ((dataColumns prev).map (fun c => c ++ "_" ++ pFV)).length + (2 + k)
      by simp only [List.length_map]; omega,
    get?_append_len,
    show 2 + k = (k + 1) + 1 by omega,
    List.get?_cons_succ, List.get?_cons_succ, get?_map_helper, hk]
  rfl

theorem applyCell_some (prev sub : Table) (pFV sFV : String) (v : String)
    (hv : v ≠ "nan") : applyCell prev sub pFV sFV (some v) = some v := by
  unfold applyCell finalizeCell
  split_ifs with hemp
  · rfl
  · simp [hv]

/-- C6 (amended): for every merged row with a contributing source row on
a side, the key cell of that side carries the source key value and every
data cell the source value verbatim — except that a missing/null source
value becomes the empty string, and (in the general two-sided path) a
value equal to the string `"nan"` is also replaced by the empty string.
Every non-null source string other than `"nan"` appears unchanged. -/
theorem spec_c6_value_fidelity (prev sub : Table) (pFV sFV : String) (M : Table)
    (ds : List Decision)
    (h : goodInput prev sub pFV sFV)
    (hM : align_columns prev sub pFV sFV = some M)
    (hds : decisionsOf prev sub pFV sFV = some ds) :
    ∀ rIdx d, ds.get? rIdx = some d →
      (∀ i, prevIdxOf d = some i →
        (∀ kv, getCell prev i "Segmentname" = some kv → kv ≠ "nan" →
          getCell M rIdx ("Segmentname_" ++ pFV) = some kv) ∧
        (∀ k c, (dataColumns prev).get? k = some c →
          (getCell prev i c = none → getCell M rIdx (c ++ "_" ++ pFV) = some "") ∧
          (∀ v, getCell prev i c = some v → v ≠ "nan" →
            getCell M rIdx (c ++ "_" ++ pFV) = some v))) ∧
      (∀ j, subIdxOf d = some j →
        (∀ kv, getCell sub j "Segmentname" = some kv → kv ≠ "nan" →
          getCell M rIdx ("Segmentname_" ++ sFV) = some kv) ∧
        (∀ k c, (dataColumns sub).get? k = some c →
          (getCell sub j c = none → getCell M rIdx (c ++ "_" ++ sFV) = some "") ∧
          (∀ v, getCell sub j c = some v → v ≠ "nan" →
            getCell M rIdx (c ++ "_" ++ sFV) = some v))) := by
  obtain ⟨ds', hds', hcols, hrows⟩ := align_columns_some prev sub pFV sFV M hM
  rw [hds'] at hds
  injection hds with hds
  subst hds
  intro rIdx d hget
  have hrow : M.rows.getD rIdx [] = mergedRowOf prev sub pFV sFV d := by
    refine getD_eq_of_get? _ _ _ _ ?_
    rw [hrows, get?_map_helper, hget]
    rfl
  have hnd := h.2.2.2.2
  have hSpP := h.2.2.1
  have hSsS := h.2.2.2.1
  constructor
  · intro i hpi
    constructor
    · intro kv hkv hnn
      show getCell M rIdx ("Segmentname_" ++ pFV) = some kv
      unfold getCell
      rw [hcols, idxOf?_order_keyPrev prev sub pFV sFV hnd, hrow]
      show (mergedRowOf prev sub pFV sFV d).getD 0 none = some kv
      rw [mergedRowOf_cell_keyPrev prev sub pFV sFV h d, hpi]
      show applyCell prev sub pFV sFV
        (getCell (renameSegmentname prev pFV) i ("Segmentname_" ++ pFV)) = some kv
      rw [getCell_rename_seg prev pFV hSpP i, hkv]
      exact applyCell_some prev sub pFV sFV kv hnn
    · intro k c hk
      have hcmem : c ∈ dataColumns prev := List.get?_mem hk
      have hcc : c ≠ "Segmentname" := by
        have := List.mem_filter.mp hcmem
        simpa using this.2
      have hcp : c ≠ "Segmentname_" ++ pFV := by
        intro he
        exact hSpP (he ▸ (List.mem_filter.mp hcmem).1)
      have hcell : getCell M rIdx (c ++ "_" ++ pFV)
          = applyCell prev sub pFV sFV
              (some ((getCell prev i c).getD "")) := by
        unfold getCell
        rw [hcols, idxOf?_order_dataPrev prev sub pFV sFV hnd k c hk, hrow]
        show (mergedRowOf prev sub pFV sFV d).getD (1 + k) none = _
        rw [mergedRowOf_cell_dataPrev prev sub pFV sFV h d k c hk, hpi]
        show applyCell prev sub pFV sFV
          (some ((getCell (renameSegmentname prev pFV) i c).getD "")) = _
        rw [getCell_rename_data prev pFV c hcc hcp i]
        rfl
      constructor
      · intro hnone
        rw [hcell, hnone]
        exact applyCell_some prev sub pFV sFV "" (by decide)
      · intro v hv hnn
        rw [hcell, hv]
        exact applyCell_some prev sub pFV sFV v hnn
  · intro j hpj
    constructor
    · intro kv hkv hnn
      show getCell M rIdx ("Segmentname_" ++ sFV) = some kv
      unfold getCell
      rw [hcols, idxOf?_order_keySub prev sub pFV sFV hnd, hrow]
      show (mergedRowOf prev sub pFV sFV d).getD (2 + (dataColumns prev).length) none = some kv
      rw [mergedRowOf_cell_keySub prev sub pFV sFV h d, hpj]
      show applyCell prev sub pFV sFV
        (getCell (renameSegmentname sub sFV) j ("Segmentname_" ++ sFV)) = some kv
      rw [getCell_rename_seg sub sFV hSsS j, hkv]
      exact applyCell_some prev sub pFV sFV kv hnn
    · intro k c hk
      have hcmem : c ∈ dataColumns sub := List.get?_mem hk
      have hcc : c ≠ "Segmentname" := by
        have := List.mem_filter.mp hcmem
        simpa using this.2
      have hcp : c ≠ "Segmentname_" ++ sFV := by
        intro he
        exact hSsS (he ▸ (List.mem_filter.mp hcmem).1)
      have hcell : getCell M rIdx (c ++ "_" ++ sFV)
          = applyCell prev sub pFV sFV
              (some ((getCell sub j c).getD "")) := by
        unfold getCell
        rw [hcols, idxOf?_order_dataSub prev sub pFV sFV hnd k c hk, hrow]
        show (mergedRowOf prev sub pFV sFV d).getD (3 + (dataColumns prev).length + k) none = _
        rw [mergedRowOf_cell_dataSub prev sub pFV sFV h d k c hk, hpj]
        show applyCell prev sub pFV sFV
          (some ((getCell (renameSegmentname sub sFV) j c).getD "")) = _
        rw [getCell_rename_data sub sFV c hcc hcp j]
        rfl
      constructor
      · intro hnone
        rw [hcell, hnone]
        exact applyCell_some prev sub pFV sFV "" (by decide)
      · intro v hv hnn
        rw [hcell, hv]
        exact applyCell_some prev sub pFV sFV v hnn

/-- C6 counterexample (refuting the verbatim claim as stated): the
non-null source value `"nan"` in a data column does not appear unchanged
in the merged output — the general path's `replace("nan", "")` turns it
into the empty string. -/
theorem spec_c6_value_fidelity_counterexample :
    getCell ⟨["Segmentname", "X"], [[some "A", some "nan"]]⟩ 0 "X" = some "nan"
      ∧ align_columns ⟨["Segmentname", "X"], [[some "A", some "nan"]]⟩
          ⟨["Segmentname"], [[some "A"]]⟩ "p" "s"
        = some ⟨["Segmentname_p", "X_p", "diff", "Segmentname_s"],
            [[some "A", some "", some "", some "A"]]⟩
      ∧ (some "" : Cell) ≠ some "nan" :=
  ⟨rfl, rfl, by decide⟩

/-- C6 witness: the fidelity theorem applied to a concrete pair. -/
theorem spec_c6_value_fidelity_witness :
    getCell ⟨["Segmentname_p", "X_p", "diff", "Segmentname_s"],
        [[some "A", some "1", some "", some "A"]]⟩ 0 ("Segmentname_" ++ "p") = some "A"
      ∧ getCell ⟨["Segmentname_p", "X_p", "diff", "Segmentname_s"],
          [[some "A", some "1", some "", some "A"]]⟩ 0 ("X" ++ "_" ++ "p") = some "1" := by
  have h := spec_c6_value_fidelity ⟨["Segmentname", "X"], [[some "A", some "1"]]⟩
    ⟨["Segmentname"], [[some "A"]]⟩ "p" "s"
    ⟨["Segmentname_p", "X_p", "diff", "Segmentname_s"],
      [[some "A", some "1", some "", some "A"]]⟩
    [Decision.unchanged 0 0] (by decide) rfl rfl 0 (Decision.unchanged 0 0) rfl
  obtain ⟨h1, -⟩ := h
  obtain ⟨hkey, hdata⟩ := h1 0 rfl
  exact ⟨hkey "A" rfl (by decide), (hdata 0 "X" rfl).2 "1" rfl (by decide)⟩

/-! ### Claim C1: forward-search resynchronisation (amended) -/

/-- C1 (amended): in a loop state with both cursors in range and
`==`-unequal current keys, the loop forward-searches `subsequent[j:]`
for the first offset matching `key(previous[i])` (Python `list.index`
semantics: string equality, or NaN-to-NaN by object identity; the first
matching offset wins).  If a match is found at offset `k > 0`, one `NEW`
row is emitted for each of `subsequent[j], …, subsequent[j+k-1]` and `j`
advances by `k`; when `key(previous[i])` is an actual string the next
iteration then pairs the match as UNCHANGED (the `==` test succeeds at
`subsequent[j+k]`).  If no offset matches, a `REMOVED` row is emitted
for `previous[i]` and `i` advances. -/
theorem spec_c1_forward_search (df_old df_new : Table) (pFV sFV : String)
    (F : Nat) (so sn : List Cell) (i j : Nat)
    (hi : i < so.length) (hj : j < sn.length)
    (hne : cellEq (so.getD i none) (sn.getD j none) = false) :
    (∀ k, findIdxOpt (fun c => pyIndexMatch (so.getD i none) c) (sn.drop j) = some k →
      0 < k →
      alignLoopF (F + 1) df_old df_new so sn pFV sFV i j
          = Option.map
              ((List.range k).map
                (fun t => mkRow df_old df_new none (some (j + t)) "NEW" pFV sFV) ++ ·)
              (alignLoopF F df_old df_new so sn pFV sFV i (j + k))
        ∧ (∀ t, t < k → pyIndexMatch (so.getD i none) (sn.getD (j + t) none) = false)
        ∧ pyIndexMatch (so.getD i none) (sn.getD (j + k) none) = true
        ∧ (∀ v, so.getD i none = some v →
            cellEq (so.getD i none) (sn.getD (j + k) none) = true))
    ∧ (findIdxOpt (fun c => pyIndexMatch (so.getD i none) c) (sn.drop j) = none →
      alignLoopF (F + 1) df_old df_new so sn pFV sFV i j
          = Option.map (mkRow df_old df_new (some i) none "REMOVED" pFV sFV :: ·)
              (alignLoopF F df_old df_new so sn pFV sFV (i + 1) j)
        ∧ ∀ t, j ≤ t → t < sn.length →
            pyIndexMatch (so.getD i none) (sn.getD t none) = false) := by
  constructor
  · intro k hk hkpos
    obtain ⟨hfound, hfirst⟩ := findIdxOpt_found _ _ _ hk
    rw [getD_drop] at hfound
    refine ⟨?_, ?_, hfound, ?_⟩
    · simp only [alignLoopF]
      rw [if_pos (Or.inl hi), if_neg (by omega), if_neg (by omega), hne]
      simp only [Bool.false_eq_true, if_false, hk]
    · intro t ht
      have := hfirst t ht
      rw [getD_drop] at this
      exact this
    · intro v hv
      rw [hv] at hfound ⊢
      simp only [pyIndexMatch, Option.isNone_some, Bool.false_and, Bool.false_or] at hfound
      rw [cellEq_symm] at hfound
      exact hfound
  · intro hk
    have hall := findIdxOpt_none _ _ hk
    constructor
    · simp only [alignLoopF]
      rw [if_pos (Or.inl hi), if_neg (by omega), if_neg (by omega), hne]
      simp only [Bool.false_eq_true, if_false, hk]
    · intro t hjt htlen
      have hmem : sn.getD t none ∈ sn.drop j := by
        have : (sn.drop j).getD (t - j) none = sn.getD t none := by
          rw [getD_drop, show j + (t - j) = t by omega]
        rw [← this]
        exact getD_mem_of_lt _ _ (by simp [List.length_drop]; omega)
      exact hall _ hmem

/-- C1 counterexample (refuting the claim as stated): with a NaN key in
`previous` and `["A", NaN]` in `subsequent`, the forward search finds
the NaN at offset 1 (> 0) by identity, NEW is emitted and `j` advances —
but the next iteration does **not** pair the match as UNCHANGED:
`nan == nan` is false, and the loop then diverges (no fuel suffices,
far more than the three iterations a terminating run would need). -/
theorem spec_c1_forward_search_counterexample :
    findIdxOpt (fun c => pyIndexMatch ((none : Cell)) c) [some "A", none] = some 1
      ∧ cellEq (List.getD [(none : Cell)] 0 none) (List.getD [some "A", none] 1 none) = false
      ∧ alignLoopF 10 ⟨["Segmentname"], [[none]]⟩ ⟨["Segmentname"], [[some "A"], [none]]⟩
          [none] [some "A", none] "p" "s" 0 0 = none :=
  ⟨rfl, rfl, rfl⟩

/-- C1 witness: the amended theorem at a concrete state. -/
theorem spec_c1_forward_search_witness :
    alignLoopF 4 ⟨["Segmentname"], [[some "B"]]⟩ ⟨["Segmentname"], [[some "A"], [some "B"]]⟩
        [some "B"] [some "A", some "B"] "p" "s" 0 0
        = Option.map
            ((List.range 1).map
              (fun t => mkRow ⟨["Segmentname"], [[some "B"]]⟩
                ⟨["Segmentname"], [[some "A"], [some "B"]]⟩ none (some (0 + t)) "NEW" "p" "s") ++ ·)
            (alignLoopF 3 ⟨["Segmentname"], [[some "B"]]⟩
              ⟨["Segmentname"], [[some "A"], [some "B"]]⟩
              [some "B"] [some "A", some "B"] "p" "s" 0 (0 + 1))
      ∧ cellEq (List.getD [some "B"] 0 none) (List.getD [some "A", some "B"] (0 + 1) none)
          = true := by
  have h := (spec_c1_forward_search ⟨["Segmentname"], [[some "B"]]⟩
    ⟨["Segmentname"], [[some "A"], [some "B"]]⟩ "p" "s" 3
    [some "B"] [some "A", some "B"] 0 0 (by decide) (by decide) (by decide)).1
    1 rfl (by decide)
  exact ⟨h.1, h.2.2.2 "B" rfl⟩

/-! ### Claim C7: version directory pairing (amended) -/

/-- C7 (amended): the pairs produced are exactly the adjacent pairs of
the full descending-sorted directory list whose two members are both
non-empty; a pair straddling an empty directory is skipped, not
re-bridged across it. -/
theorem spec_c7_pairing (formatversion_list : List String) (isEmptyDir : String → Bool) :
    determine_consecutive_formatversions formatversion_list isEmptyDir
      = (formatversion_list.zip formatversion_list.tail).filter
          (fun q => !(isEmptyDir q.1) && !(isEmptyDir q.2)) := by
  induction formatversion_list with
  | nil => rfl
  | cons a rest ih =>
      cases rest with
      | nil => rfl
      | cons b t =>
          unfold determine_consecutive_formatversions
          rw [show (a :: b :: t).length - 1 = t.length + 1 by simp,
            List.range_succ_eq_map, List.filterMap_cons, List.filterMap_map]
          have htail : List.filterMap
              ((fun i =>
                if isEmptyDir ((a :: b :: t).getD i "")
                    || isEmptyDir ((a :: b :: t).getD (i + 1) "") then none
                else some ((a :: b :: t).getD i "", (a :: b :: t).getD (i + 1) ""))
                ∘ (fun x => x + 1)) (List.range t.length)
              = determine_consecutive_formatversions (b :: t) isEmptyDir := rfl
          rw [htail, ih]
          show _ = List.filter _ ((a, b) :: (b :: t).zip t)
          rw [List.filter_cons]
          by_cases hab : (isEmptyDir a || isEmptyDir b) = true
          · simp only [List.getD_cons_zero, List.getD_cons_succ, hab, if_true]
            have : (!(isEmptyDir a) && !(isEmptyDir b)) = false := by
              rcases Bool.or_eq_true_iff.mp hab with hx | hx <;> simp [hx]
            rw [this]
            rfl
          · simp only [List.getD_cons_zero, List.getD_cons_succ, hab, if_false]
            have : (!(isEmptyDir a) && !(isEmptyDir b)) = true := by
              rw [Bool.or_eq_true_iff] at hab
              push_neg at hab
              simp [Bool.eq_false_iff.mpr hab.1, Bool.eq_false_iff.mpr hab.2]
            rw [this]
            rfl

/-- C7 counterexample (refuting the claim as stated): with the middle
directory empty, the source function produces no pair at all, whereas
the claimed rule (adjacent pairs of the non-empty sublist) would bridge
the gap and pair the outer two. -/
theorem spec_c7_pairing_counterexample :
    determine_consecutive_formatversions ["FV2504", "FV2501", "FV2410"]
        (fun v => v == "FV2501") = []
      ∧ specConsecutivePairs ["FV2504", "FV2501", "FV2410"]
          (fun v => v == "FV2501") = [("FV2504", "FV2410")] :=
  ⟨rfl, rfl⟩

/-! ### Claim C8: version tag parsing (amended) -/

/-- C8 (amended): `parse_formatversions` succeeds exactly on strings
that start with `"FV"`, have length 6, whose two 2-character slices are
both accepted by Python's `int()` (two decimal digits — Unicode decimal
digits included — or a single decimal digit padded by an ASCII sign or
a Unicode whitespace character: strictly more than "4 digits"), and
whose parsed month lies in 1..12; the year is 2000 plus the parsed
first slice.  Every other input raises. -/
theorem spec_c8_parse (fv : String) (y m : Int) :
    parse_formatversions fv = Except.ok (y, m) ↔
      (pyStartsWithFV fv = true ∧ fv.data.length = 6
        ∧ (∃ a, pyInt? ((fv.data.drop 2).take 2) = some a ∧ y = 2000 + a)
        ∧ pyInt? ((fv.data.drop 4).take 2) = some m ∧ 1 ≤ m ∧ m ≤ 12) := by
  unfold parse_formatversions
  split_ifs with h1
  · constructor
    · intro h; cases h
    · rintro ⟨hs, hl, -⟩
      rcases h1 with h1 | h1
      · exact absurd hs h1
      · exact absurd hl h1
  · push_neg at h1
    obtain ⟨hs, hl⟩ := h1
    cases hy : pyInt? ((fv.data.drop 2).take 2) with
    | none =>
        constructor
        · intro h; cases h
        · rintro ⟨-, -, ⟨a, ha, -⟩, -⟩
          cases ha
    | some a =>
        cases hm : pyInt? ((fv.data.drop 4).take 2) with
        | none =>
            constructor
            · intro h; cases h
            · rintro ⟨-, -, -, hb, -⟩
              cases hb
        | some b =>
            show (if 1 ≤ b ∧ b ≤ 12 then Except.ok (2000 + a, b)
                else Except.error ("invalid formatversion: " ++ fv)) = Except.ok (y, m) ↔ _
            split_ifs with hrange
            · simp only [Except.ok.injEq, Prod.mk.injEq]
              constructor
              · rintro ⟨hy', hm'⟩
                exact ⟨hs, hl, ⟨a, rfl, hy'.symm⟩, by rw [hm'], by rw [← hm']; exact hrange.1,
                  by rw [← hm']; exact hrange.2⟩
              · rintro ⟨-, -, ⟨a', ha', hya⟩, hb', -, -⟩
                injection ha' with ha'
                injection hb' with hb'
                exact ⟨by rw [hya, ha'], hb'⟩
            · constructor
              · intro h; cases h
              · rintro ⟨-, -, -, hb', hm1, hm2⟩
                injection hb' with hb'
                exact absurd ⟨hb' ▸ hm1, hb' ▸ hm2⟩ hrange

/-- C8 counterexample (refuting the "exactly 4 digits" grammar): the
strings `"FV+512"` and `"FV５２04"` (fullwidth digits U+FF15, U+FF12)
are not `FV` + 4 ASCII digits, yet Python's `int("+5")` and
`int("５２")` succeed, so the parser accepts both — returning
(2005, 12) and (2052, 4) — instead of raising. -/
theorem spec_c8_parse_counterexample :
    parse_formatversions "FV+512" = Except.ok (2005, 12)
      ∧ parse_formatversions "FV５２04" = Except.ok (2052, 4)
      ∧ (("FV+512".data.drop 2).all Char.isDigit) = false
      ∧ (("FV５２04".data.drop 2).all Char.isDigit) = false :=
  ⟨rfl, rfl, by decide, by decide⟩

/-- C8 witness: the characterisation applied to a well-formed tag. -/
theorem spec_c8_parse_witness :
    parse_formatversions "FV2504" = Except.ok (2025, 4) :=
  (spec_c8_parse "FV2504" 2025 4).mpr
    ⟨rfl, rfl, ⟨25, rfl, by decide⟩, rfl, by decide, by decide⟩

end AhbDiff
